import Mathlib

/-!
Verification of the bam-rag ingestion pipeline against its design document.

Strings from the Go source are modelled as `List Char`.  Go's `strings`
helpers (`HasPrefix`, `HasSuffix`, `Contains`, `Replace` with count 1,
`TrimSuffix`, `TrimSpace`, `ToLower`) are given explicit executable
counterparts, and the three regular expressions used by the markdown
detector are compiled by hand into structurally recursive matchers that
recognise exactly the same languages.
-/

namespace BamRag

/-- Go `strings.HasPrefix p` on the char-list model. -/
def startsWithL : List Char → List Char → Bool
  | [], _ => true
  | _ :: _, [] => false
  | a :: p, b :: s => a == b && startsWithL p s

/-- Go `strings.HasSuffix`. -/
def endsWithL (p s : List Char) : Bool :=
  startsWithL p.reverse s.reverse

/-- Go `strings.Contains`: some suffix of `s` starts with `p`. -/
def containsSub (p : List Char) : List Char → Bool
  | [] => startsWithL p []
  | c :: rest => startsWithL p (c :: rest) || containsSub p rest

/-- Go `strings.Replace(s, pat, rep, 1)`: replace the first occurrence only. -/
def replaceOnce (pat rep : List Char) : List Char → List Char
  | [] => []
  | c :: rest =>
      if startsWithL pat (c :: rest) then rep ++ (c :: rest).drop pat.length
      else c :: replaceOnce pat rep rest

/-- ASCII lowering, as applied by `strings.ToLower` to the ASCII range. -/
def lowerChar (c : Char) : Char :=
  if 'A' ≤ c && c ≤ 'Z' then Char.ofNat (c.toNat + 32) else c

/-- Go `strings.ToLower` (the inputs of interest are ASCII). -/
def toLowerL (s : List Char) : List Char :=
  s.map lowerChar

/-- Code points accepted by Go `unicode.IsSpace` (used by `strings.TrimSpace`). -/
def uniSpaceCodes : List Nat :=
  [9, 10, 11, 12, 13, 32, 0x85, 0xA0, 0x1680,
   0x2000, 0x2001, 0x2002, 0x2003, 0x2004, 0x2005, 0x2006, 0x2007,
   0x2008, 0x2009, 0x200A, 0x2028, 0x2029, 0x202F, 0x205F, 0x3000]

/-- Go `unicode.IsSpace`. -/
def isUniSpace (c : Char) : Bool :=
  uniSpaceCodes.contains c.toNat

/-- The ASCII whitespace class `\s` of Go's regexp package: `[\t\n\f\r ]`. -/
def isGoSpace (c : Char) : Bool :=
  c == '\t' || c == '\n' || c == Char.ofNat 12 || c == '\r' || c == ' '

/-- Go `strings.TrimSpace`: strip `unicode.IsSpace` runs from both ends. -/
def trimSpaceL (s : List Char) : List Char :=
  ((s.dropWhile isUniSpace).reverse.dropWhile isUniSpace).reverse

/-- Go `strings.TrimSuffix(url, "/")`: drop one trailing slash if present. -/
def trimSuffixSlash (s : List Char) : List Char :=
  if endsWithL "/".data s then s.dropLast else s

/-! ## The markdown detector (`internal/markdown/detector.go`) -/

/-- `IsMarkdownContentType`: the lowered Content-Type header starts with a
markdown media type. -/
def IsMarkdownContentType (contentType : List Char) : Bool :=
  startsWithL "text/markdown".data (toLowerL contentType) ||
    startsWithL "text/x-markdown".data (toLowerL contentType)

/-- `IsMarkdownURL`: the lowered URL ends in `.md` or `.markdown`. -/
def IsMarkdownURL (url : List Char) : Bool :=
  endsWithL ".md".data (toLowerL url) ||
    endsWithL ".markdown".data (toLowerL url)

/-- `looksLikeHTML`: the lowered content starts with a doctype or an
html/head/body tag. -/
def looksLikeHTML (content : List Char) : Bool :=
  startsWithL "<!doctype".data (toLowerL content) ||
    startsWithL "<html".data (toLowerL content) ||
    startsWithL "<head".data (toLowerL content) ||
    startsWithL "<body".data (toLowerL content)

/-- Number of leading `#` characters. -/
def countHashes : List Char → Nat
  | '#' :: rest => countHashes rest + 1
  | _ => 0

/-- Matcher for `\s+\S` at the current position: at least one regexp
whitespace char followed (after further whitespace) by a non-whitespace
char.  Matching `\s+\S` at a position is equivalent to the first char being
whitespace and a non-whitespace char occurring somewhere later, because the
first non-whitespace char after a whitespace run closes the match. -/
def spaceThenNonspace : List Char → Bool
  | [] => false
  | c :: rest => isGoSpace c && rest.any (fun d => !(isGoSpace d))

/-- The heading regex `^#{1,6}\s+\S` (no multiline flag: anchored at the very
start of the text).  With more than six leading hashes no backtracking
alternative succeeds, because the char after any shorter hash run is `#`. -/
def headingPat (s : List Char) : Bool :=
  decide (1 ≤ countHashes s) && decide (countHashes s ≤ 6) &&
    spaceThenNonspace (s.drop (countHashes s))

/-- `[\-\*]\s+\S` at the current position. -/
def bulletAt : List Char → Bool
  | [] => false
  | c :: rest => (c == '-' || c == '*') && spaceThenNonspace rest

/-- Scan for a bullet match at a position just after a newline. -/
def bulletSearch : List Char → Bool
  | [] => false
  | c :: rest => (c == '\n' && bulletAt rest) || bulletSearch rest

/-- The bullet regex `(?m)^[\-\*]\s+\S`: a bullet at the start of the text or
right after any newline. -/
def bulletPat (s : List Char) : Bool :=
  bulletAt s || bulletSearch s

/-- After `](`, one mandatory non-newline char has been consumed; this scans
`.*?\)`: a possibly-empty run of non-newline chars ending at `)`. -/
def linkParenTail : List Char → Bool
  | [] => false
  | c :: rest => c == ')' || (c != '\n' && linkParenTail rest)

/-- After `[` and one mandatory non-newline char, scan `.*?\]\(.+?\)`. -/
def linkBodyTail : List Char → Bool
  | [] => false
  | c :: rest =>
      (c == ']' &&
        (match rest with
         | '(' :: d :: rest2 => d != '\n' && linkParenTail rest2
         | _ => false)) ||
      (c != '\n' && linkBodyTail rest)

/-- The link regex `\[.+?\]\(.+?\)`, matched anywhere in the text
(`.` does not match a newline). -/
def linkScan : List Char → Bool
  | [] => false
  | c :: rest =>
      (c == '[' &&
        (match rest with
         | d :: rest2 => d != '\n' && linkBodyTail rest2
         | [] => false)) ||
      linkScan rest

/-- `hasMarkdownPatterns`: heading at the start, bullet at any line start, or
a link pattern anywhere. -/
def hasMarkdownPatterns (content : List Char) : Bool :=
  headingPat content || bulletPat content || linkScan content

/-- `IsMarkdownContent`: empty content is not markdown; content that looks
like HTML (after trimming) is not markdown; otherwise the structural
heuristics decide. -/
def IsMarkdownContent (content : List Char) : Bool :=
  if content == [] then false
  else
    if looksLikeHTML (trimSpaceL content) then false
    else hasMarkdownPatterns (trimSpaceL content)

/-- `Detect`: Content-Type first, then URL suffix, then content heuristics. -/
def Detect (url contentType content : List Char) : Bool :=
  if IsMarkdownContentType contentType then true
  else if IsMarkdownURL url then true
  else IsMarkdownContent content

/-- The raw-content URL the source builds for a GitHub blob URL: first
occurrence of `github.com` replaced by `raw.githubusercontent.com`, first
occurrence of `/blob/` replaced by `/`. -/
def githubRawVariant (url : List Char) : List Char :=
  replaceOnce "/blob/".data "/".data
    (replaceOnce "github.com".data "raw.githubusercontent.com".data url)

/-- `MarkdownURLVariants`: GitHub blob URLs map to exactly the raw URL;
already-markdown URLs map to nothing; anything else gets `.md` appended
after stripping one trailing slash. -/
def MarkdownURLVariants (url : List Char) : List (List Char) :=
  if containsSub "github.com".data url && containsSub "/blob/".data url then
    [githubRawVariant url]
  else if IsMarkdownURL url then []
  else [trimSuffixSlash url ++ ".md".data]

/-- Modelled from the spec's words for claim C1 step (c): "presence of a
heading line", read uniformly with the bullet case as presence at the start
of any line, next to the bullet and link heuristics. -/
def headingSearch : List Char → Bool
  | [] => false
  | c :: rest => (c == '\n' && headingPat rest) || headingSearch rest

/-- Modelled from the spec's words for claim C1 step (c): a heading line,
bullet line, or link pattern present anywhere in the content. -/
def specMarkdownPattern (content : List Char) : Bool :=
  headingPat content || headingSearch content || bulletPat content || linkScan content

/-- The right-hand side of claim C1 taken literally: markdown media type, or
markdown URL suffix, or (structural pattern present anywhere, and the
trimmed body does not look like an HTML document). -/
def claimC1RHS (url contentType body : List Char) : Bool :=
  IsMarkdownContentType contentType || IsMarkdownURL url ||
    (specMarkdownPattern (trimSpaceL body) && !looksLikeHTML (trimSpaceL body))

/-! ## SHA-256 and `GenerateDocumentID` (`pkg/models/document.go`)

`GenerateDocumentID` hashes the UTF-8 bytes of the URL with `crypto/sha256`
and keeps the first 16 hex characters.  SHA-256 (FIPS 180-4) is implemented
below over `Nat` with explicit reduction modulo `2^32`. -/

/-- Reduce modulo `2^32`. -/
def w32 (n : Nat) : Nat := n % 4294967296

/-- 32-bit modular addition. -/
def add32 (a b : Nat) : Nat := w32 (a + b)

/-- 32-bit right rotation (operands are kept below `2^32`). -/
def rotr (n x : Nat) : Nat := w32 ((x >>> n) ||| (x <<< (32 - n)))

/-- SHA-256 small sigma 0. -/
def ssig0 (x : Nat) : Nat := (rotr 7 x) ^^^ (rotr 18 x) ^^^ (x >>> 3)

/-- SHA-256 small sigma 1. -/
def ssig1 (x : Nat) : Nat := (rotr 17 x) ^^^ (rotr 19 x) ^^^ (x >>> 10)

/-- SHA-256 big sigma 0. -/
def bsig0 (x : Nat) : Nat := (rotr 2 x) ^^^ (rotr 13 x) ^^^ (rotr 22 x)

/-- SHA-256 big sigma 1. -/
def bsig1 (x : Nat) : Nat := (rotr 6 x) ^^^ (rotr 11 x) ^^^ (rotr 25 x)

/-- SHA-256 choice function (`¬x` as xor against the 32-bit mask). -/
def chF (x y z : Nat) : Nat := (x &&& y) ^^^ ((x ^^^ 4294967295) &&& z)

/-- SHA-256 majority function. -/
def majF (x y z : Nat) : Nat := (x &&& y) ^^^ (x &&& z) ^^^ (y &&& z)

/-- The 64 SHA-256 round constants of FIPS 180-4 (written in decimal). -/
def sha256K : List Nat :=
  [1116352408, 1899447441, 3049323471, 3921009573, 961987163, 1508970993,
   2453635748, 2870763221, 3624381080, 310598401, 607225278, 1426881987,
   1925078388, 2162078206, 2614888103, 3248222580, 3835390401, 4022224774,
   264347078, 604807628, 770255983, 1249150122, 1555081692, 1996064986,
   2554220882, 2821834349, 2952996808, 3210313671, 3336571891, 3584528711,
   113926993, 338241895, 666307205, 773529912, 1294757372, 1396182291,
   1695183700, 1986661051, 2177026350, 2456956037, 2730485921, 2820302411,
   3259730800, 3345764771, 3516065817, 3600352804, 4094571909, 275423344,
   430227734, 506948616, 659060556, 883997877, 958139571, 1322822218,
   1537002063, 1747873779, 1955562222, 2024104815, 2227730452, 2361852424,
   2428436474, 2756734187, 3204031479, 3329325298]

/-- The SHA-256 working state: eight 32-bit words. -/
structure H8 where
  a : Nat
  b : Nat
  c : Nat
  d : Nat
  e : Nat
  f : Nat
  g : Nat
  hh : Nat

/-- The SHA-256 initial hash value of FIPS 180-4 (written in decimal). -/
def sha256Init : H8 :=
  ⟨1779033703, 3144134277, 1013904242, 2773480762,
   1359893119, 2600822924, 528734635, 1541459225⟩

/-- One SHA-256 round with round constant `k` and schedule word `w`. -/
def sha256Round (s : H8) (k w : Nat) : H8 :=
  let t1 := add32 s.hh (add32 (bsig1 s.e) (add32 (chF s.e s.f s.g) (add32 k w)))
  let t2 := add32 (bsig0 s.a) (majF s.a s.b s.c)
  ⟨add32 t1 t2, s.a, s.b, s.c, add32 s.d t1, s.e, s.f, s.g⟩

/-- One step of the message-schedule extension; the list holds the schedule
words most recent first. -/
def schedStep (w : List Nat) : List Nat :=
  add32 (add32 (ssig1 (w.getD 1 0)) (w.getD 6 0))
        (add32 (ssig0 (w.getD 14 0)) (w.getD 15 0)) :: w

/-- Iterate the schedule extension 48 times over the reversed 16 block words
and return the 64 schedule words in order. -/
def sha256Schedule (block : List Nat) : List Nat :=
  (schedStep^[48] block.reverse).reverse

/-- Group bytes into big-endian 32-bit words. -/
def bytesToWords : List Nat → List Nat
  | b0 :: b1 :: b2 :: b3 :: rest => (((b0 * 256 + b1) * 256 + b2) * 256 + b3) :: bytesToWords rest
  | _ => []

/-- Compress one 64-byte block into the running hash state. -/
def sha256Block (s : H8) (blockBytes : List Nat) : H8 :=
  let ws := sha256Schedule (bytesToWords blockBytes)
  let t := (sha256K.zip ws).foldl (fun st kw => sha256Round st kw.1 kw.2) s
  ⟨add32 s.a t.a, add32 s.b t.b, add32 s.c t.c, add32 s.d t.d,
   add32 s.e t.e, add32 s.f t.f, add32 s.g t.g, add32 s.hh t.hh⟩

/-- Number of zero pad bytes for a message of `len` bytes. -/
def padZeros (len : Nat) : Nat := (119 - len % 64) % 64

/-- Big-endian 8-byte encoding of the bit length. -/
def lenBytes (n : Nat) : List Nat :=
  [n / 2 ^ 56 % 256, n / 2 ^ 48 % 256, n / 2 ^ 40 % 256, n / 2 ^ 32 % 256,
   n / 2 ^ 24 % 256, n / 2 ^ 16 % 256, n / 2 ^ 8 % 256, n % 256]

/-- SHA-256 padding: `0x80`, zeros to 56 mod 64, then the 64-bit bit length. -/
def sha256Pad (msg : List Nat) : List Nat :=
  msg ++ 0x80 :: List.replicate (padZeros msg.length) 0 ++ lenBytes (8 * msg.length)

/-- Split a (padded) byte list into its 64-byte blocks. -/
def chunk64 (l : List Nat) : List (List Nat) :=
  (List.range (l.length / 64)).map (fun i => (l.drop (64 * i)).take 64)

/-- Big-endian 4-byte encoding of a 32-bit word. -/
def word4 (w : Nat) : List Nat :=
  [w / 2 ^ 24 % 256, w / 2 ^ 16 % 256, w / 2 ^ 8 % 256, w % 256]

/-- Serialize the final state to the 32-byte digest. -/
def h8Bytes (s : H8) : List Nat :=
  word4 s.a ++ word4 s.b ++ word4 s.c ++ word4 s.d ++
    word4 s.e ++ word4 s.f ++ word4 s.g ++ word4 s.hh

/-- SHA-256 of a byte list. -/
def sha256 (msg : List Nat) : List Nat :=
  h8Bytes ((chunk64 (sha256Pad msg)).foldl sha256Block sha256Init)

/-- UTF-8 encoding of one scalar value, as Go's `[]byte(string)` produces. -/
def utf8Char (c : Char) : List Nat :=
  let n := c.toNat
  if n < 0x80 then [n]
  else if n < 0x800 then [0xC0 + n / 64, 0x80 + n % 64]
  else if n < 0x10000 then [0xE0 + n / 4096, 0x80 + n / 64 % 64, 0x80 + n % 64]
  else [0xF0 + n / 0x40000, 0x80 + n / 4096 % 64, 0x80 + n / 64 % 64, 0x80 + n % 64]

/-- UTF-8 bytes of a string. -/
def utf8Bytes (s : List Char) : List Nat :=
  s.flatMap utf8Char

/-- Lower-case hex digit. -/
def hexDigit (n : Nat) : Char :=
  if n < 10 then Char.ofNat (48 + n) else Char.ofNat (87 + n)

/-- Two hex digits of a byte (`encoding/hex`). -/
def hexByte (b : Nat) : List Char :=
  [hexDigit (b / 16), hexDigit (b % 16)]

/-- `hex.EncodeToString`. -/
def hexEncode (l : List Nat) : List Char :=
  l.flatMap hexByte

/-- `GenerateDocumentID`: first 16 hex characters of the SHA-256 of the URL. -/
def GenerateDocumentID (url : List Char) : List Char :=
  (hexEncode (sha256 (utf8Bytes url))).take 16

/-! ## Data model (`pkg/models/document.go`)

Embedding vectors are float slices in Go; their numeric values are never
computed on by the code under verification, so they are modelled as opaque
`List Int` values, with `Option` distinguishing Go's nil slice. -/

/-- The retrieval unit. -/
structure Document where
  id : List Char
  url : List Char
  title : List Char
  content : List Char
  contentType : List Char
  scrapedAt : Nat
  tags : List (List Char)
  summary : List Char
  embedding : Option (List Int)
deriving DecidableEq

/-! ## Elasticsearch client (`internal/elasticsearch/client.go`)

The Elasticsearch service itself is an external black box (spec §1); the
model fixes the query shape the client sends and treats the service as an
arbitrary function from requests to responses. -/

/-- The shape of a search request the client builds: a lexical multi-match
over named fields, or an RRF retriever fusing a multi-match and a kNN
clause over the embedding field. -/
inductive EsQuery where
  | lexical (query : List Char) (fields : List (List Char)) (size : Nat)
  | rrf (query : List Char) (fields : List (List Char))
        (queryVector : List Int) (k : Nat) (numCandidates : Nat) (size : Nat)
deriving DecidableEq

/-- The external Elasticsearch service: an arbitrary response to each
request (it may also fail). -/
structure EsBackend where
  exec : EsQuery → Except (List Char) (List Document)

/-- `Search`: BM25 multi-match over content, title, tags (boosted), summary. -/
def Search (es : EsBackend) (query : List Char) (limit : Nat) :
    Except (List Char) (List Document) :=
  es.exec (.lexical query
    ["content".data, "title".data, "tags^2".data, "summary".data] limit)

/-- `HybridSearch`: with a nil embedding, fall back to `Search`; otherwise
send the RRF retriever combining the multi-match and the kNN clause. -/
def HybridSearch (es : EsBackend) (query : List Char)
    (queryEmbedding : Option (List Int)) (limit : Nat) :
    Except (List Char) (List Document) :=
  match queryEmbedding with
  | none => Search es query limit
  | some v =>
      es.exec (.rrf query ["content".data, "title".data] v limit (limit * 2) limit)

/-- `IndexDocument` indexes with `WithDocumentID doc.ID`: insert-or-replace
keyed by the document id.  This models the resulting index contents. -/
def upsertDocument (idx : List Document) (doc : Document) : List Document :=
  if idx.any (fun d => d.id == doc.id) then
    idx.map (fun d => if d.id == doc.id then doc else d)
  else idx ++ [doc]

/-! ## Snapshot store (`internal/storage/s3.go`)

The object store is keyed by (prefix, filename) for page files and by
prefix for the single `metadata.json` manifest, with last-writer-wins
overwrite semantics. -/

/-- The scrape manifest. -/
structure ScrapeMetadata where
  sourceURL : List Char
  timestamp : List Char
  pageCount : Nat
  pages : List (List Char)
deriving DecidableEq

/-- Store contents: page objects under `{prefix}/pages/{filename}` and one
manifest per prefix. -/
structure Store where
  pages : List (List Char × List Char × List Char)
  manifests : List (List Char × ScrapeMetadata)
deriving DecidableEq

/-- `PutMarkdown`: write (overwrite) one page object. -/
def putPage (st : Store) (pfx fname content : List Char) : Store :=
  if st.pages.any (fun e => e.1 == pfx && e.2.1 == fname) then
    { st with pages := st.pages.map (fun e =>
        if e.1 == pfx && e.2.1 == fname then (pfx, fname, content) else e) }
  else { st with pages := st.pages ++ [(pfx, fname, content)] }

/-- `PutMetadata`: write (overwrite) the manifest of a prefix. -/
def putMeta (st : Store) (pfx : List Char) (m : ScrapeMetadata) : Store :=
  if st.manifests.any (fun e => e.1 == pfx) then
    { st with manifests := st.manifests.map (fun e =>
        if e.1 == pfx then (pfx, m) else e) }
  else { st with manifests := st.manifests ++ [(pfx, m)] }

/-- `GetMetadata`: read the manifest of a prefix. -/
def getMeta (st : Store) (pfx : List Char) : Option ScrapeMetadata :=
  ((st.manifests.filter (fun e => e.1 == pfx)).head?).map (fun e => e.2)

/-- `ListMarkdownFiles`: filenames under the prefix ending in `.md`. -/
def listMarkdownFiles (st : Store) (pfx : List Char) : List (List Char) :=
  (st.pages.filter (fun e => e.1 == pfx && endsWithL ".md".data e.2.1)).map
    (fun e => e.2.1)

/-- `GetMarkdown`: read one page object. -/
def getMarkdown (st : Store) (pfx fname : List Char) : Option (List Char) :=
  ((st.pages.filter (fun e => e.1 == pfx && e.2.1 == fname)).head?).map
    (fun e => e.2.2)

/-- A successful write performed against the store, in order. -/
inductive StoreOp where
  | page (pfx fname content : List Char)
  | meta (pfx : List Char) (m : ScrapeMetadata)
deriving DecidableEq

/-- Replay one write. -/
def applyOp (st : Store) : StoreOp → Store
  | .page pfx fname content => putPage st pfx fname content
  | .meta pfx m => putMeta st pfx m

/-- Replay a write trace. -/
def applyOps (st : Store) (ops : List StoreOp) : Store :=
  ops.foldl applyOp st

/-! ## Crawler (`internal/scraper/scraper.go`)

The network, the colly engine and the context are external; a `CrawlRun`
records the externally determined facts a run observes — whether the start
URL parsed, whether the initial `Visit` errored, whether the context was
cancelled, and the pages the response handler collected.  `Scrape` is the
source's control flow over those facts. -/

/-- The error cases `Scrape` can surface. -/
inductive ScrapeErr where
  | parseFailed
  | ctxCancelled
deriving DecidableEq

/-- Externally determined facts of one crawl run. -/
structure CrawlRun where
  parseOk : Bool
  visitErr : Bool
  cancelled : Bool
  collected : List Document
deriving DecidableEq

/-- `Scrape`: a parse failure returns nil docs and the error; a `Visit`
error is swallowed and the collected docs returned as success; a cancelled
run returns the partial docs paired with the context error; otherwise the
collected docs are returned as success. -/
def Scrape (run : CrawlRun) : List Document × Option ScrapeErr :=
  if !run.parseOk then ([], some .parseFailed)
  else if run.visitErr then (run.collected, none)
  else if run.cancelled then (run.collected, some .ctxCancelled)
  else (run.collected, none)

/-- `ScrapeResult` of `ScrapeToS3`. -/
structure ScrapeResult where
  pfx : List Char
  pageCount : Nat
  sourceURL : List Char
deriving DecidableEq

/-- The error cases of `ScrapeToS3`. -/
inductive S3Err where
  | parseFailed
  | scrapeFailed
  | metaFailed
deriving DecidableEq

/-- Environment of one `ScrapeToS3` call: the crawl run, the generated
run prefix and timestamp string (both time-dependent in the source, so
supplied by the environment), and which store writes fail. -/
structure S3Env where
  startURL : List Char
  run : CrawlRun
  pfx : List Char
  tsStr : List Char
  putPageFails : List Char → Bool
  putMetaFails : Bool

/-- The page-writing loop of `ScrapeToS3`: hash each document's URL into a
filename, attempt the write, skip the document on write failure, and record
the URLs of the successfully written pages in order. -/
def writePages (env : S3Env) : List Document → List StoreOp × List (List Char)
  | [] => ([], [])
  | d :: rest =>
      let fname := GenerateDocumentID d.url ++ ".md".data
      if env.putPageFails fname then writePages env rest
      else
        let o := writePages env rest
        (.page env.pfx fname d.content :: o.1, d.url :: o.2)

/-- The stored filename of a page: its URL hash plus `.md`. -/
def pageFname (d : Document) : List Char :=
  GenerateDocumentID d.url ++ ".md".data

/-- The documents the embedded `Scrape` call collects. -/
def scrapedDocs (env : S3Env) : List Document :=
  (Scrape env.run).1

/-- The collected documents whose page writes succeed, in order. -/
def keptPages (env : S3Env) : List Document → List Document
  | [] => []
  | d :: rest =>
      if env.putPageFails (pageFname d) then keptPages env rest
      else d :: keptPages env rest

/-- The URLs recorded in the manifest: the successfully written pages. -/
def scrapePages (env : S3Env) : List (List Char) :=
  (writePages env (scrapedDocs env)).2

/-- The manifest `ScrapeToS3` writes. -/
def scrapeMeta (env : S3Env) : ScrapeMetadata :=
  ⟨env.startURL, env.tsStr, (scrapePages env).length, scrapePages env⟩

/-- `ScrapeToS3`: parse the start URL, scrape, hard-fail only when the
scrape errored with zero documents, write each page, then write the
manifest last; a manifest write failure aborts the run.  The first
component is the trace of successful store writes, in order. -/
def ScrapeToS3 (env : S3Env) : List StoreOp × Except S3Err ScrapeResult :=
  if !env.run.parseOk then ([], .error .parseFailed)
  else
    let s := Scrape env.run
    if s.2.isSome && s.1.isEmpty then ([], .error .scrapeFailed)
    else
      let w := writePages env s.1
      if env.putMetaFails then (w.1, .error .metaFailed)
      else (w.1 ++ [.meta env.pfx (scrapeMeta env)],
            .ok ⟨env.pfx, w.2.length, env.startURL⟩)

/-! ## Ingestion engine (`internal/ingestion/engine.go`)

The optional model clients (tag/summary generation, embedding generation),
the external HTML→Markdown converter, the HTML title extractor and the
Elasticsearch write path are external collaborators; an `IngestEnv`
supplies their behaviour.  `Option` on the clients models Go's nil client
("capability absent"), independent of whether a present client's calls
succeed. -/

/-- Tags and summary returned by `EnrichDocument`. -/
structure Enrichment where
  tags : List (List Char)
  summary : List Char

/-- External collaborators of document processing. -/
structure IngestEnv where
  enrich : Option (List Char → List Char → Except Unit Enrichment)
  embed : Option (List Char → Except Unit (List Int))
  convert : List Char → Except (List Char) (List Char)
  extractTitle : List Char → List Char
  indexFails : List Char → Bool
  cancelled : Bool
  now : Nat

/-- Go `strings.Split(content, "\n")`. -/
def splitNl : List Char → List (List Char)
  | [] => [[]]
  | '\n' :: rest => [] :: splitNl rest
  | c :: rest =>
      match splitNl rest with
      | l :: ls => (c :: l) :: ls
      | [] => [[c]]

/-- `extractMarkdownTitle`: the first trimmed line starting with `"# "`,
with that marker stripped; empty if none. -/
def extractMarkdownTitle (content : List Char) : List Char :=
  match ((splitNl content).map trimSpaceL).find? (startsWithL "# ".data) with
  | some l => l.drop 2
  | none => []

/-- The two optional enrichment calls, each failure degrading to the
unenriched document (a log warning in the source). -/
def applyEnrichment (env : IngestEnv) (base : Document) (md : List Char) : Document :=
  let d1 :=
    match env.enrich with
    | none => base
    | some f =>
        match f base.title md with
        | .error _ => base
        | .ok e => { base with tags := e.tags, summary := e.summary }
  match env.embed with
  | none => d1
  | some g =>
      match g md with
      | .error _ => d1
      | .ok v => { d1 with embedding := some v }

/-- `Engine.processDocument`: detect markdown (with an empty content-type),
either keep the content and take the first H1 as title or convert HTML after
extracting the `<title>`, fall back to the URL as title, then enrich. -/
def processDocument (env : IngestEnv) (pageURL content : List Char) :
    Except (List Char) Document :=
  if Detect pageURL [] content then
    let t0 := extractMarkdownTitle content
    let title := if t0 == ([] : List Char) then pageURL else t0
    .ok (applyEnrichment env
      ⟨GenerateDocumentID pageURL, pageURL, title, content, [], env.now, [], [], none⟩
      content)
  else
    match env.convert content with
    | .error e => .error e
    | .ok md =>
        let t0 := env.extractTitle content
        let title := if t0 == ([] : List Char) then pageURL else t0
        .ok (applyEnrichment env
          ⟨GenerateDocumentID pageURL, pageURL, title, md, [], env.now, [], [], none⟩
          md)

/-- Aggregate outcome of an ingestion run. -/
structure IngestResult where
  pfx : List Char
  docsIndexed : Nat
  errors : List (List Char)
deriving DecidableEq

/-- Error string recorded when the context is cancelled mid-run. -/
def ctxCancelledMsg : List Char := "context cancelled".data

/-- Error string recorded when a page object cannot be read. -/
def readFailMsg : List Char := "failed to get markdown".data

/-- Error string recorded when the index write fails. -/
def indexFailMsg : List Char := "failed to index document".data

/-- The filename → URL mapping built from the manifest (Go map semantics:
a later page with the same filename overwrites an earlier one). -/
def urlToFileMap (pages : List (List Char)) : List (List Char × List Char) :=
  pages.map (fun u => (GenerateDocumentID u ++ ".md".data, u))

/-- Lookup in the filename → URL mapping (the last insertion wins). -/
def lookupUrlFor (m : List (List Char × List Char)) (fname : List Char) :
    Option (List Char) :=
  ((m.filter (fun e => e.1 == fname)).getLast?).map (fun e => e.2)

/-- What one file of the ingestion loop contributes: the error message the
source records (read failure, processing failure, or index-write failure)
or the document it successfully indexes.  The URL falls back to the bare
filename when the manifest does not cover it. -/
def stepOutcome (env : IngestEnv) (st : Store) (pfx : List Char)
    (u2f : List (List Char × List Char)) (fname : List Char) :
    Except (List Char) Document :=
  let pageURL :=
    match lookupUrlFor u2f fname with
    | some u => u
    | none => fname
  match getMarkdown st pfx fname with
  | none => .error readFailMsg
  | some content =>
      match processDocument env pageURL content with
      | .error e => .error e
      | .ok doc => if env.indexFails doc.id then .error indexFailMsg else .ok doc

/-- One iteration of the ingestion loop: record the error and continue, or
index the document and count it. -/
def ingestStep (env : IngestEnv) (st : Store) (pfx : List Char)
    (u2f : List (List Char × List Char))
    (acc : List Document × IngestResult) (fname : List Char) :
    List Document × IngestResult :=
  match stepOutcome env st pfx u2f fname with
  | .error e => (acc.1, { acc.2 with errors := acc.2.errors ++ [e] })
  | .ok doc =>
      (upsertDocument acc.1 doc,
       { acc.2 with docsIndexed := acc.2.docsIndexed + 1 })

/-- The ingestion loop, checking for cancellation before each file and
breaking with a recorded error when cancelled. -/
def ingestFiles (env : IngestEnv) (st : Store) (pfx : List Char)
    (u2f : List (List Char × List Char)) :
    List (List Char) → List Document × IngestResult → List Document × IngestResult
  | [], acc => acc
  | f :: rest, acc =>
      if env.cancelled then
        (acc.1, { acc.2 with errors := acc.2.errors ++ [ctxCancelledMsg] })
      else ingestFiles env st pfx u2f rest (ingestStep env st pfx u2f acc f)

/-- The per-file outcomes of one ingestion pass, independent of the running
accumulator: the documents successfully indexed, in order, and the error
messages recorded, in order.  Used to factor the loop for proofs. -/
def runOutcome (env : IngestEnv) (st : Store) (pfx : List Char)
    (u2f : List (List Char × List Char)) :
    List (List Char) → List Document × List (List Char)
  | [] => ([], [])
  | f :: rest =>
      if env.cancelled then ([], [ctxCancelledMsg])
      else
        match stepOutcome env st pfx u2f f with
        | .error e =>
            ((runOutcome env st pfx u2f rest).1,
             e :: (runOutcome env st pfx u2f rest).2)
        | .ok d =>
            (d :: (runOutcome env st pfx u2f rest).1,
             (runOutcome env st pfx u2f rest).2)

/-- `Engine.Ingest`: read the manifest (hard error when absent), build the
URL mapping, list the page files and process each in order against the
index `idx`. -/
def Ingest (env : IngestEnv) (st : Store) (idx : List Document) (pfx : List Char) :
    Except Unit (List Document × IngestResult) :=
  match getMeta st pfx with
  | none => .error ()
  | some m =>
      .ok (ingestFiles env st pfx (urlToFileMap m.pages)
            (listMarkdownFiles st pfx) (idx, ⟨pfx, 0, []⟩))

/-! ## Pipeline coordinator, direct flow (`internal/pipeline/pipeline.go`) -/

/-- Aggregate outcome of `Pipeline.Run`. -/
structure PipelineResult where
  pagesScraped : Nat
  docsIndexed : Nat
  errors : List (List Char)
deriving DecidableEq

/-- The error string `Pipeline.Run` records for a scrape error. -/
def scrapeErrMsg : ScrapeErr → List Char
  | .parseFailed => "parse failed".data
  | .ctxCancelled => "context canceled".data

/-- `Pipeline.Run`'s per-document processing: like the engine's, but the
detector sees the scraped content type, and the document keeps the scraped
content type and scrape time. -/
def pipelineProcessDoc (env : IngestEnv) (scraped : Document) :
    Except (List Char) Document :=
  if Detect scraped.url scraped.contentType scraped.content then
    let t0 := extractMarkdownTitle scraped.content
    let title := if t0 == ([] : List Char) then scraped.url else t0
    .ok (applyEnrichment env
      ⟨GenerateDocumentID scraped.url, scraped.url, title, scraped.content,
       scraped.contentType, scraped.scrapedAt, [], [], none⟩
      scraped.content)
  else
    match env.convert scraped.content with
    | .error e => .error e
    | .ok md =>
        let t0 := env.extractTitle scraped.content
        let title := if t0 == ([] : List Char) then scraped.url else t0
        .ok (applyEnrichment env
          ⟨GenerateDocumentID scraped.url, scraped.url, title, md,
           scraped.contentType, scraped.scrapedAt, [], [], none⟩
          md)

/-- What one scraped page contributes to the pipeline run. -/
def pipelineOutcome (env : IngestEnv) (scraped : Document) :
    Except (List Char) Document :=
  match pipelineProcessDoc env scraped with
  | .error e => .error e
  | .ok doc => if env.indexFails doc.id then .error indexFailMsg else .ok doc

/-- One iteration of `Pipeline.Run`'s loop. -/
def pipelineStep (env : IngestEnv) (acc : List Document × PipelineResult)
    (scraped : Document) : List Document × PipelineResult :=
  match pipelineOutcome env scraped with
  | .error e => (acc.1, { acc.2 with errors := acc.2.errors ++ [e] })
  | .ok doc =>
      (upsertDocument acc.1 doc,
       { acc.2 with docsIndexed := acc.2.docsIndexed + 1 })

/-- `Pipeline.Run`: scrape (recording a scrape error but keeping the pages),
then process and index each page in order against the index `idx`. -/
def PipelineRun (env : IngestEnv) (run : CrawlRun) (idx : List Document) :
    List Document × PipelineResult :=
  let s := Scrape run
  let errs0 :=
    match s.2 with
    | some e => [scrapeErrMsg e]
    | none => ([] : List (List Char))
  s.1.foldl (pipelineStep env) (idx, ⟨s.1.length, 0, errs0⟩)

/-- A document with its enrichment-produced fields cleared; used to compare
runs that differ only in enrichment behaviour. -/
def stripEnrichment (d : Document) : Document :=
  { d with tags := [], summary := [], embedding := none }

/-- The same environment with both optional model clients absent. -/
def baseEnv (env : IngestEnv) : IngestEnv :=
  { env with enrich := none, embed := none }

/-- Equality of `Except` values is decidable when it is on both sides. -/
instance decEqExcept {ε α : Type} [DecidableEq ε] [DecidableEq α] :
    DecidableEq (Except ε α)
  | .ok a, .ok b => decidable_of_iff (a = b) (by simp)
  | .ok _, .error _ => isFalse (by simp)
  | .error _, .ok _ => isFalse (by simp)
  | .error e, .error f => decidable_of_iff (e = f) (by simp)

/-! ## Concrete fixtures used to instantiate the theorems -/

/-- A collected page used by concrete instantiations. -/
def sampleDoc : Document :=
  ⟨[], "https://example.com/a".data, [], "hi".data, [], 0, [], [], none⟩

/-- A crawl run cancelled after having collected one page. -/
def cancelledRun : CrawlRun := ⟨true, false, true, [sampleDoc]⟩

/-- A `ScrapeToS3` environment for a one-page run with no store failures. -/
def sampleS3Env : S3Env :=
  ⟨"https://example.com".data, ⟨true, false, false, [sampleDoc]⟩,
   "scrapes/example.com/run1".data, "2024-12-04T17:30:00Z".data,
   fun _ => false, false⟩

/-- An ingestion environment with both model clients absent, a failing
converter (never reached in the instantiations), always-successful index
writes and no cancellation. -/
def plainIngestEnv : IngestEnv :=
  ⟨none, none, fun _ => .error "conversion failed".data, fun _ => [],
   fun _ => false, false, 0⟩

/-- URL of the page in the idempotence instantiation. -/
def wUrl : List Char := "https://example.com/docs".data

/-- Prefix of the idempotence instantiation. -/
def wPfx : List Char := "scrapes/example.com/w".data

/-- A store holding one markdown page and its manifest. -/
def wStore : Store :=
  ⟨[(wPfx, GenerateDocumentID wUrl ++ ".md".data, "# Title\nbody".data)],
   [(wPfx, ⟨wUrl, [], 1, [wUrl]⟩)]⟩

/-- The document ingesting `wStore` produces. -/
def wDoc : Document :=
  ⟨GenerateDocumentID wUrl, wUrl, "Title".data, "# Title\nbody".data,
   [], 0, [], [], none⟩

/-- The ingestion result over `wStore`. -/
def wRes : IngestResult := ⟨wPfx, 1, []⟩

/-- Two collected markdown pages for the round-trip instantiation. -/
def rDoc1 : Document :=
  ⟨[], "https://example.com/a".data, [], "# A\ntext".data, [], 0, [], [], none⟩

/-- Second page of the round-trip instantiation. -/
def rDoc2 : Document :=
  ⟨[], "https://example.com/b".data, [], "# B\ntext".data, [], 0, [], [], none⟩

/-- A two-page `ScrapeToS3` environment with no store failures. -/
def roundtripEnv : S3Env :=
  ⟨"https://example.com".data, ⟨true, false, false, [rDoc1, rDoc2]⟩,
   "scrapes/example.com/rt".data, "ts".data, fun _ => false, false⟩

/-- A manifest whose single page does not hash to the orphan filename. -/
def orphanMeta : ScrapeMetadata :=
  ⟨"https://example.com".data, "ts".data, 1, ["https://example.com/p".data]⟩

/-! ## General lemmas -/

/-- `startsWithL` recognises exactly the prefix relation. -/
theorem startsWithL_iff (p s : List Char) :
    startsWithL p s = true ↔ ∃ t, s = p ++ t := by
  induction p generalizing s with
  | nil =>
      constructor
      · intro _; exact ⟨s, by simp⟩
      · intro _; rfl
  | cons a p ih =>
      cases s with
      | nil =>
          simp only [startsWithL, List.cons_append]
          constructor
          · intro h; cases h
          · rintro ⟨t, h⟩; cases h
      | cons b s =>
          simp only [startsWithL, Bool.and_eq_true, beq_iff_eq, ih, List.cons_append]
          constructor
          · rintro ⟨rfl, t, rfl⟩; exact ⟨t, rfl⟩
          · rintro ⟨t, h⟩
            injection h with h1 h2
            exact ⟨h1.symm, t, h2⟩

/-- `endsWithL` recognises exactly the suffix relation. -/
theorem endsWithL_iff (p s : List Char) :
    endsWithL p s = true ↔ ∃ t, s = t ++ p := by
  unfold endsWithL
  rw [startsWithL_iff]
  constructor
  · rintro ⟨t, h⟩
    refine ⟨t.reverse, ?_⟩
    have := congrArg List.reverse h
    simpa using this
  · rintro ⟨t, rfl⟩
    exact ⟨t.reverse, by simp⟩

/-- A list always ends with its appended suffix. -/
theorem endsWithL_append (p t : List Char) : endsWithL p (t ++ p) = true :=
  (endsWithL_iff p (t ++ p)).2 ⟨t, rfl⟩

/-- `hexEncode` produces two characters per byte. -/
theorem hexEncode_length (l : List Nat) : (hexEncode l).length = 2 * l.length := by
  induction l with
  | nil => rfl
  | cons a t ih =>
      simp only [hexEncode, List.flatMap_cons, List.length_append, List.length_cons] at ih ⊢
      simp only [hexByte, List.length_cons, List.length_nil]
      omega

/-- SHA-256 digests are 32 bytes long for every message. -/
theorem sha256_length (msg : List Nat) : (sha256 msg).length = 32 := by
  simp [sha256, h8Bytes, word4]

/-! ## Claim C2 -/

/-- Claim C2: the document id is a pure, deterministic function of the URL
alone — by construction `GenerateDocumentID` is a function, so equal URLs
give equal ids — and it equals the first 16 hexadecimal characters of the
SHA-256 hash of the URL's UTF-8 bytes, with fixed truncated length 16 for
every URL. -/
theorem generateDocumentID_spec (u : List Char) :
    GenerateDocumentID u = (hexEncode (sha256 (utf8Bytes u))).take 16 ∧
    (GenerateDocumentID u).length = 16 := by
  refine ⟨rfl, ?_⟩
  unfold GenerateDocumentID
  rw [List.length_take, hexEncode_length, sha256_length]
  omega

/-! ## Claim C3 -/

/-- Claim C3: `MarkdownURLVariants` returns exactly the raw-content URL for
a GitHub blob URL (host substring replaced, `/blob/` segment collapsed) and
nothing else; otherwise an empty sequence for an already-markdown URL;
otherwise exactly the URL with one trailing slash stripped and `.md`
appended. -/
theorem markdownURLVariants_cases (url : List Char) :
    ((containsSub "github.com".data url && containsSub "/blob/".data url) = true →
      MarkdownURLVariants url = [githubRawVariant url]) ∧
    ((containsSub "github.com".data url && containsSub "/blob/".data url) = false →
      IsMarkdownURL url = true → MarkdownURLVariants url = []) ∧
    ((containsSub "github.com".data url && containsSub "/blob/".data url) = false →
      IsMarkdownURL url = false →
      MarkdownURLVariants url = [trimSuffixSlash url ++ ".md".data]) := by
  refine ⟨fun h => ?_, fun h h2 => ?_, fun h h2 => ?_⟩
  · simp [MarkdownURLVariants, h]
  · simp [MarkdownURLVariants, h, h2]
  · simp [MarkdownURLVariants, h, h2]

/-- Claim C3 witness: the three branches at concrete URLs — a GitHub blob
URL, a plain markdown URL, and an HTML page URL with a trailing slash. -/
theorem markdownURLVariants_cases_witness :
    MarkdownURLVariants "https://github.com/a/b/blob/main/README.md".data =
      [githubRawVariant "https://github.com/a/b/blob/main/README.md".data] ∧
    MarkdownURLVariants "https://example.com/guide.md".data = [] ∧
    MarkdownURLVariants "https://example.com/docs/".data =
      [trimSuffixSlash "https://example.com/docs/".data ++ ".md".data] :=
  ⟨(markdownURLVariants_cases _).1 (by decide),
   (markdownURLVariants_cases _).2.1 (by decide) (by decide),
   (markdownURLVariants_cases _).2.2 (by decide) (by decide)⟩

/-! ## Claim C4 -/

/-- Claim C4: hybrid search with no embedding supplied returns exactly the
result of the plain lexical search for the same query and limit, for every
backend behaviour. -/
theorem hybridSearch_nil_embedding (es : EsBackend) (query : List Char) (limit : Nat) :
    HybridSearch es query none limit = Search es query limit := rfl

/-! ## Claim C1 -/

/-- Claim C1 counterexample: the body `"hello\n# World"` contains a heading
line, is not HTML-like, and the URL and content-type give no markdown hint,
so the claim as stated classifies the triple as markdown; the code's heading
regex is anchored at the start of the text (no multiline flag), and `Detect`
returns false. -/
theorem detect_counterexample :
    ¬(Detect "https://example.com/page".data [] "hello\n# World".data = true ↔
      claimC1RHS "https://example.com/page".data [] "hello\n# World".data = true) := by
  decide

/-- Claim C1 (amended): `Detect` classifies as markdown iff, first match
wins, (a) the content-type hint has a markdown media-type prefix, or (b)
the lowercased URL ends in a markdown suffix, or (c) the trimmed body
matches a structural heuristic — a heading at the start of the trimmed
body, a bullet line at the start of any line, or a link pattern anywhere —
and the trimmed body does not start with a doctype/html/head/body tag; the
HTML-lookalike check overrides only step (c).  Totality and determinism
hold by construction, as `Detect` is a total function. -/
theorem detect_characterization (url contentType body : List Char) :
    Detect url contentType body = true ↔
      (IsMarkdownContentType contentType = true ∨ IsMarkdownURL url = true ∨
        (hasMarkdownPatterns (trimSpaceL body) = true ∧
         looksLikeHTML (trimSpaceL body) = false)) := by
  cases h1 : IsMarkdownContentType contentType with
  | true => simp [Detect, h1]
  | false =>
    cases h2 : IsMarkdownURL url with
    | true => simp [Detect, h1, h2]
    | false =>
      by_cases h3 : body = []
      · subst h3
        simp [Detect, IsMarkdownContent, h1, h2]
        decide
      · cases h4 : looksLikeHTML (trimSpaceL body) with
        | true => simp [Detect, IsMarkdownContent, h1, h2, h3, h4]
        | false => simp [Detect, IsMarkdownContent, h1, h2, h3, h4]

/-! ## Claim C5 -/

/-- Claim C5 counterexample: a run cancelled mid-crawl has collected one
page, yet `Scrape` pairs the partial list with a non-nil context error, so
"whenever at least one document was collected, the crawl returns success"
fails as stated. -/
theorem scrape_partial_counterexample :
    (Scrape cancelledRun).1 ≠ [] ∧ (Scrape cancelledRun).2 ≠ none := by
  decide

/-- Claim C5 (amended): outside cancellation, a `Scrape` error implies zero
collected pages, and at least one collected page implies success with the
partial list; `ScrapeToS3`'s begin-failure errors imply zero collected
documents, and at least one collected document plus a successful manifest
write yields success. -/
theorem scrape_partial_success (run : CrawlRun) (env : S3Env)
    (hc : run.cancelled = false) :
    ((Scrape run).2 ≠ none → (Scrape run).1 = []) ∧
    ((Scrape run).1 ≠ [] → (Scrape run).2 = none) ∧
    ((ScrapeToS3 env).2 = .error .parseFailed ∨
       (ScrapeToS3 env).2 = .error .scrapeFailed → scrapedDocs env = []) ∧
    (scrapedDocs env ≠ [] → env.putMetaFails = false →
      (ScrapeToS3 env).2 = .ok ⟨env.pfx, (scrapePages env).length, env.startURL⟩) := by
  have hS : ∀ r : CrawlRun, r.cancelled = false →
      Scrape r = if !r.parseOk then ([], some .parseFailed) else (r.collected, none) := by
    intro r hrc
    unfold Scrape
    rw [hrc]
    cases r.parseOk <;> cases r.visitErr <;> simp
  refine ⟨?_, ?_, ?_, ?_⟩
  · intro h
    rw [hS run hc] at h ⊢
    cases hp : run.parseOk
    · simp [hp]
    · simp [hp] at h
  · intro h
    rw [hS run hc] at h ⊢
    cases hp : run.parseOk
    · simp [hp] at h
    · simp [hp]
  · intro h
    unfold ScrapeToS3 at h
    cases hp : env.run.parseOk
    · simp [scrapedDocs, Scrape, hp]
    · simp only [hp, Bool.not_true, Bool.false_eq_true, if_false] at h
      cases hcond : ((Scrape env.run).2.isSome && (Scrape env.run).1.isEmpty)
      · simp only [hcond, Bool.false_eq_true, if_false] at h
        cases hm2 : env.putMetaFails <;> simp [hm2] at h
      · simp only [Bool.and_eq_true] at hcond
        exact List.isEmpty_iff.1 hcond.2
  · intro h hm
    unfold scrapedDocs at h
    have hp : env.run.parseOk = true := by
      cases hq : env.run.parseOk
      · exfalso
        apply h
        unfold Scrape
        rw [hq]
        simp
      · rfl
    have hne : (Scrape env.run).1.isEmpty = false := by
      cases he : (Scrape env.run).1.isEmpty
      · rfl
      · exact absurd (List.isEmpty_iff.1 he) h
    unfold ScrapeToS3
    simp [hp, hm, hne, scrapePages, scrapedDocs]

/-- Claim C5 witness: the amended statement instantiated — a failed-parse
run errors with zero pages, and the one-page environment with successful
store writes returns success. -/
theorem scrape_partial_success_witness :
    (Scrape ⟨false, false, false, []⟩).1 = [] ∧
    (ScrapeToS3 sampleS3Env).2 =
      .ok ⟨sampleS3Env.pfx, (scrapePages sampleS3Env).length, sampleS3Env.startURL⟩ :=
  ⟨(scrape_partial_success ⟨false, false, false, []⟩ sampleS3Env (by decide)).1 (by decide),
   (scrape_partial_success ⟨false, false, false, []⟩ sampleS3Env (by decide)).2.2.2
     (by decide) (by decide)⟩

/-! ## Claim C7 -/

/-- Unfolding `writePages` when the page write fails. -/
theorem writePages_cons_skip (env : S3Env) (d : Document) (rest : List Document)
    (h : env.putPageFails (GenerateDocumentID d.url ++ ".md".data) = true) :
    writePages env (d :: rest) = writePages env rest := by
  simp [writePages, h]

/-- Unfolding `writePages` when the page write succeeds. -/
theorem writePages_cons_keep (env : S3Env) (d : Document) (rest : List Document)
    (h : env.putPageFails (GenerateDocumentID d.url ++ ".md".data) = false) :
    writePages env (d :: rest) =
      (StoreOp.page env.pfx (GenerateDocumentID d.url ++ ".md".data) d.content
         :: (writePages env rest).1,
       d.url :: (writePages env rest).2) := by
  simp [writePages, h]

/-- Every write the page loop performs is a page write under the run prefix. -/
theorem writePages_ops_page (env : S3Env) (docs : List Document) :
    ∀ op ∈ (writePages env docs).1, ∃ f c, op = StoreOp.page env.pfx f c := by
  induction docs with
  | nil => intro op hop; simp [writePages] at hop
  | cons d rest ih =>
      intro op hop
      cases hf : env.putPageFails (GenerateDocumentID d.url ++ ".md".data)
      · rw [writePages_cons_keep env d rest hf] at hop
        rcases List.mem_cons.1 hop with h | h
        · exact ⟨_, _, h⟩
        · exact ih op h
      · rw [writePages_cons_skip env d rest hf] at hop
        exact ih op hop

/-- In a trace of page writes followed by one last op, any meta op in the
trace can only be that last op. -/
theorem pages_append_meta_last (P : List Char) (xs : List StoreOp)
    (hx : ∀ op ∈ xs, ∃ f c, op = StoreOp.page P f c) :
    ∀ z l1 pfx m l2, xs ++ [z] = l1 ++ StoreOp.meta pfx m :: l2 → l2 = [] := by
  induction xs with
  | nil =>
      intro z l1 pfx m l2 hEq
      cases l1 with
      | nil =>
          simp only [List.nil_append] at hEq
          injection hEq with h1 h2
          exact h2.symm
      | cons a l1' =>
          rw [List.cons_append] at hEq
          injection hEq with h1 h2
          exact absurd h2.symm (by simp)
  | cons x xs' ih =>
      intro z l1 pfx m l2 hEq
      cases l1 with
      | nil =>
          rcases hx x (List.mem_cons_self _ _) with ⟨f, c, hxeq⟩
          rw [List.cons_append, List.nil_append] at hEq
          injection hEq with h1 h2
          rw [hxeq] at h1
          simp at h1
      | cons a l1' =>
          rw [List.cons_append, List.cons_append] at hEq
          injection hEq with h1 h2
          exact ih (fun op hop => hx op (List.mem_cons_of_mem _ hop)) z l1' pfx m l2 h2

/-- Head of the filtered manifest list after an overwriting `putMeta`. -/
theorem filter_overwrite_head (l : List (List Char × ScrapeMetadata))
    (pfx : List Char) (m : ScrapeMetadata)
    (h : l.any (fun e => e.1 == pfx) = true) :
    ((l.map (fun e => if e.1 == pfx then (pfx, m) else e)).filter
        (fun e => e.1 == pfx)).head? = some (pfx, m) := by
  induction l with
  | nil => simp at h
  | cons e t ih =>
      cases he : (e.1 == pfx)
      · have h' : t.any (fun e => e.1 == pfx) = true := by
          simp only [List.any_cons, he, Bool.false_or] at h
          exact h
        simp only [List.map_cons, he, Bool.false_eq_true, if_false, List.filter_cons, he]
        exact ih h'
      · simp only [List.map_cons, he, if_true, List.filter_cons, beq_self_eq_true,
          List.head?_cons]

/-- Head of the filtered manifest list after an appending `putMeta`. -/
theorem filter_append_head (l : List (List Char × ScrapeMetadata))
    (pfx : List Char) (m : ScrapeMetadata)
    (h : l.any (fun e => e.1 == pfx) = false) :
    ((l ++ [(pfx, m)]).filter (fun e => e.1 == pfx)).head? = some (pfx, m) := by
  have hnil : l.filter (fun e => e.1 == pfx) = [] := by
    rw [List.filter_eq_nil_iff]
    intro a ha
    have := List.any_eq_false.1 h a ha
    simpa using this
  rw [List.filter_append, hnil]
  simp

/-- Reading back the manifest just written for a prefix returns it. -/
theorem getMeta_putMeta (st : Store) (pfx : List Char) (m : ScrapeMetadata) :
    getMeta (putMeta st pfx m) pfx = some m := by
  unfold putMeta getMeta
  cases h : st.manifests.any (fun e => e.1 == pfx)
  · simp only [h, Bool.false_eq_true, if_false]
    rw [filter_append_head st.manifests pfx m h]
    rfl
  · simp only [h, if_true]
    rw [filter_overwrite_head st.manifests pfx m h]
    rfl

/-- Claim C7: in every `ScrapeToS3` trace a manifest write can only be the
last write (so it is never written before all performed page writes), and a
successful return implies the trace ends with the manifest write for the
run's prefix, whose replay stores the manifest under that prefix. -/
theorem scrapeToS3_manifest_last (env : S3Env) :
    (∀ l1 pfx m l2, (ScrapeToS3 env).1 = l1 ++ StoreOp.meta pfx m :: l2 → l2 = []) ∧
    (∀ r, (ScrapeToS3 env).2 = .ok r →
      (ScrapeToS3 env).1.getLast? = some (StoreOp.meta env.pfx (scrapeMeta env)) ∧
      ∀ st, getMeta (applyOps st (ScrapeToS3 env).1) env.pfx = some (scrapeMeta env)) := by
  unfold ScrapeToS3
  cases hp : env.run.parseOk
  · simp only [hp, Bool.not_false, if_true]
    constructor
    · intro l1 pfx m l2 hEq
      exact absurd hEq.symm (by simp)
    · intro r hr
      simp at hr
  · simp only [hp, Bool.not_true, Bool.false_eq_true, if_false]
    cases hcond : ((Scrape env.run).2.isSome && (Scrape env.run).1.isEmpty)
    · simp only [hcond, Bool.false_eq_true, if_false]
      cases hm : env.putMetaFails
      · simp only [hm, Bool.false_eq_true, if_false]
        constructor
        · intro l1 pfx m l2 hEq
          exact pages_append_meta_last env.pfx _
            (writePages_ops_page env _) _ l1 pfx m l2 hEq
        · intro r _
          constructor
          · exact List.getLast?_concat _
          · intro st
            unfold applyOps
            rw [List.foldl_append]
            exact getMeta_putMeta _ env.pfx (scrapeMeta env)
      · simp only [hm, if_true]
        constructor
        · intro l1 pfx m l2 hEq
          have hmem : StoreOp.meta pfx m ∈ (writePages env (Scrape env.run).1).1 := by
            rw [hEq]
            simp
          rcases writePages_ops_page env _ _ hmem with ⟨f, c, hbad⟩
          simp at hbad
        · intro r hr
          simp at hr
    · simp only [hcond, if_true]
      constructor
      · intro l1 pfx m l2 hEq
        exact absurd hEq.symm (by simp)
      · intro r hr
        simp at hr

/-- Claim C7 witness: the one-page environment instantiated — the trace
decomposed around its meta write forces an empty tail, the trace ends with
the manifest write, and replaying it on an empty store stores the
manifest. -/
theorem scrapeToS3_manifest_last_witness :
    ([] : List StoreOp) = [] ∧
    (ScrapeToS3 sampleS3Env).1.getLast? =
      some (StoreOp.meta sampleS3Env.pfx (scrapeMeta sampleS3Env)) ∧
    getMeta (applyOps ⟨[], []⟩ (ScrapeToS3 sampleS3Env).1) sampleS3Env.pfx =
      some (scrapeMeta sampleS3Env) :=
  ⟨(scrapeToS3_manifest_last sampleS3Env).1
      [StoreOp.page sampleS3Env.pfx
        (GenerateDocumentID sampleDoc.url ++ ".md".data) sampleDoc.content]
      sampleS3Env.pfx (scrapeMeta sampleS3Env) [] (by decide),
   ((scrapeToS3_manifest_last sampleS3Env).2
      ⟨sampleS3Env.pfx, 1, sampleS3Env.startURL⟩ (by decide)).1,
   ((scrapeToS3_manifest_last sampleS3Env).2
      ⟨sampleS3Env.pfx, 1, sampleS3Env.startURL⟩ (by decide)).2 ⟨[], []⟩⟩

/-! ## Claim C6 -/

/-- Stripping does not change the id. -/
theorem stripEnrichment_id (d : Document) : (stripEnrichment d).id = d.id := rfl

/-- `baseEnv` keeps the converter. -/
theorem baseEnv_convert (env : IngestEnv) : (baseEnv env).convert = env.convert := rfl

/-- `baseEnv` keeps the title extractor. -/
theorem baseEnv_extractTitle (env : IngestEnv) :
    (baseEnv env).extractTitle = env.extractTitle := rfl

/-- `baseEnv` keeps the index-failure behaviour. -/
theorem baseEnv_indexFails (env : IngestEnv) :
    (baseEnv env).indexFails = env.indexFails := rfl

/-- `baseEnv` keeps the cancellation state. -/
theorem baseEnv_cancelled (env : IngestEnv) :
    (baseEnv env).cancelled = env.cancelled := rfl

/-- `baseEnv` keeps the clock. -/
theorem baseEnv_now (env : IngestEnv) : (baseEnv env).now = env.now := rfl

/-- Enrichment only ever touches tags, summary and embedding. -/
theorem applyEnrichment_shape (env : IngestEnv) (b : Document) (md : List Char) :
    ∃ tg sm em, applyEnrichment env b md =
      { b with tags := tg, summary := sm, embedding := em } := by
  unfold applyEnrichment
  cases henr : env.enrich with
  | none =>
      dsimp only
      cases hemb : env.embed with
      | none => exact ⟨b.tags, b.summary, b.embedding, rfl⟩
      | some g =>
          dsimp only
          cases hg : g md with
          | error e => exact ⟨b.tags, b.summary, b.embedding, rfl⟩
          | ok v => exact ⟨b.tags, b.summary, some v, rfl⟩
  | some f =>
      dsimp only
      cases hf : f b.title md with
      | error e =>
          dsimp only
          cases hemb : env.embed with
          | none => exact ⟨b.tags, b.summary, b.embedding, rfl⟩
          | some g =>
              dsimp only
              cases hg : g md with
              | error e2 => exact ⟨b.tags, b.summary, b.embedding, rfl⟩
              | ok v => exact ⟨b.tags, b.summary, some v, rfl⟩
      | ok e =>
          dsimp only
          cases hemb : env.embed with
          | none => exact ⟨e.tags, e.summary, b.embedding, rfl⟩
          | some g =>
              dsimp only
              cases hg : g md with
              | error e2 => exact ⟨e.tags, e.summary, b.embedding, rfl⟩
              | ok v => exact ⟨e.tags, e.summary, some v, rfl⟩

/-- Stripping undoes whatever enrichment did. -/
theorem stripEnrichment_applyEnrichment (env : IngestEnv) (b : Document) (md : List Char) :
    stripEnrichment (applyEnrichment env b md) = stripEnrichment b := by
  rcases applyEnrichment_shape env b md with ⟨tg, sm, em, h⟩
  rw [h]
  rfl

/-- Up to its enrichment-produced fields, a processed document does not
depend on the model clients at all. -/
theorem processDocument_strip (env : IngestEnv) (u c : List Char) :
    (processDocument env u c).map stripEnrichment =
      (processDocument (baseEnv env) u c).map stripEnrichment := by
  unfold processDocument
  rw [baseEnv_convert, baseEnv_extractTitle, baseEnv_now]
  cases hd : Detect u [] c
  · simp only [hd, Bool.false_eq_true, if_false]
    cases hc : env.convert c with
    | error e => rfl
    | ok md =>
        simp only [hc, Except.map]
        rw [stripEnrichment_applyEnrichment, stripEnrichment_applyEnrichment]
  · simp only [hd, if_true, Except.map]
    rw [stripEnrichment_applyEnrichment, stripEnrichment_applyEnrichment]

/-- The step outcome of one stored file, compared with the client-free
environment: identical error messages and strip-identical documents. -/
theorem stepOutcome_strip (env : IngestEnv) (st : Store) (pfx : List Char)
    (u2f : List (List Char × List Char)) (fname : List Char) :
    (stepOutcome env st pfx u2f fname).map stripEnrichment =
      (stepOutcome (baseEnv env) st pfx u2f fname).map stripEnrichment := by
  unfold stepOutcome
  cases hg : getMarkdown st pfx fname with
  | none => rfl
  | some content =>
      dsimp only
      have h := processDocument_strip env
        (match lookupUrlFor u2f fname with | some u => u | none => fname) content
      cases hpe : processDocument env
          (match lookupUrlFor u2f fname with | some u => u | none => fname) content with
      | error e =>
          cases hpb : processDocument (baseEnv env)
              (match lookupUrlFor u2f fname with | some u => u | none => fname) content with
          | error e2 =>
              rw [hpe, hpb] at h
              simp only [Except.map] at h
              injection h with h1
              rw [h1]
          | ok d2 =>
              rw [hpe, hpb] at h
              simp only [Except.map] at h
              cases h
      | ok d =>
          cases hpb : processDocument (baseEnv env)
              (match lookupUrlFor u2f fname with | some u => u | none => fname) content with
          | error e2 =>
              rw [hpe, hpb] at h
              simp only [Except.map] at h
              cases h
          | ok d2 =>
              rw [hpe, hpb] at h
              simp only [Except.map] at h
              injection h with h1
              have hid : d.id = d2.id := by
                have := congrArg Document.id h1
                simpa [stripEnrichment_id] using this
              dsimp only
              rw [baseEnv_indexFails, ← hid]
              cases hi : env.indexFails d.id
              · simp only [hi, Bool.false_eq_true, if_false, Except.map, h1]
              · simp only [hi, if_true]

/-- Upserting commutes with stripping enrichment. -/
theorem upsertDocument_strip_map (idx : List Document) (d : Document) :
    (upsertDocument idx d).map stripEnrichment =
      upsertDocument (idx.map stripEnrichment) (stripEnrichment d) := by
  unfold upsertDocument
  have hany : (idx.map stripEnrichment).any (fun x => x.id == (stripEnrichment d).id) =
      idx.any (fun x => x.id == d.id) := by
    rw [List.any_map]
    rfl
  rw [hany]
  cases h : idx.any (fun x => x.id == d.id)
  · simp only [h, Bool.false_eq_true, if_false, List.map_append, List.map_cons,
      List.map_nil]
  · simp only [h, if_true, List.map_map]
    congr 1
    funext x
    simp only [Function.comp]
    cases hx : (x.id == d.id)
    · simp only [stripEnrichment_id, hx, Bool.false_eq_true, if_false]
    · simp only [stripEnrichment_id, hx, if_true]

/-- The whole ingestion loop, compared with the client-free environment:
equal results and strip-identical index contents. -/
theorem ingestFiles_strip (env : IngestEnv) (st : Store) (pfx : List Char)
    (u2f : List (List Char × List Char)) (files : List (List Char)) :
    ∀ idx1 idx2 res, idx1.map stripEnrichment = idx2.map stripEnrichment →
      (ingestFiles env st pfx u2f files (idx1, res)).1.map stripEnrichment =
        (ingestFiles (baseEnv env) st pfx u2f files (idx2, res)).1.map stripEnrichment ∧
      (ingestFiles env st pfx u2f files (idx1, res)).2 =
        (ingestFiles (baseEnv env) st pfx u2f files (idx2, res)).2 := by
  induction files with
  | nil => intro idx1 idx2 res h; exact ⟨h, rfl⟩
  | cons f rest ih =>
      intro idx1 idx2 res h
      unfold ingestFiles
      rw [baseEnv_cancelled]
      cases hc : env.cancelled
      · simp only [Bool.false_eq_true, if_false]
        have hso := stepOutcome_strip env st pfx u2f f
        unfold ingestStep
        cases he : stepOutcome env st pfx u2f f with
        | error e =>
            cases hb : stepOutcome (baseEnv env) st pfx u2f f with
            | error e2 =>
                rw [he, hb] at hso
                simp only [Except.map] at hso
                injection hso with h1
                rw [h1]
                exact ih idx1 idx2 _ h
            | ok d2 =>
                rw [he, hb] at hso
                simp only [Except.map] at hso
                cases hso
        | ok d =>
            cases hb : stepOutcome (baseEnv env) st pfx u2f f with
            | error e2 =>
                rw [he, hb] at hso
                simp only [Except.map] at hso
                cases hso
            | ok d2 =>
                rw [he, hb] at hso
                simp only [Except.map] at hso
                injection hso with h1
                apply ih
                rw [upsertDocument_strip_map, upsertDocument_strip_map, h, h1]
      · simp only [eq_self_iff_true, if_true]
        exact ⟨h, trivial⟩

/-- The pipeline's per-document processing, compared with the client-free
environment. -/
theorem pipelineProcessDoc_strip (env : IngestEnv) (scraped : Document) :
    (pipelineProcessDoc env scraped).map stripEnrichment =
      (pipelineProcessDoc (baseEnv env) scraped).map stripEnrichment := by
  unfold pipelineProcessDoc
  rw [baseEnv_convert, baseEnv_extractTitle]
  cases hd : Detect scraped.url scraped.contentType scraped.content
  · simp only [hd, Bool.false_eq_true, if_false]
    cases hc : env.convert scraped.content with
    | error e => rfl
    | ok md =>
        simp only [Except.map]
        rw [stripEnrichment_applyEnrichment, stripEnrichment_applyEnrichment]
  · simp only [hd, if_true, Except.map]
    rw [stripEnrichment_applyEnrichment, stripEnrichment_applyEnrichment]

/-- The pipeline's per-document outcome, compared with the client-free
environment. -/
theorem pipelineOutcome_strip (env : IngestEnv) (scraped : Document) :
    (pipelineOutcome env scraped).map stripEnrichment =
      (pipelineOutcome (baseEnv env) scraped).map stripEnrichment := by
  unfold pipelineOutcome
  have h := pipelineProcessDoc_strip env scraped
  cases hpe : pipelineProcessDoc env scraped with
  | error e =>
      cases hpb : pipelineProcessDoc (baseEnv env) scraped with
      | error e2 =>
          rw [hpe, hpb] at h
          simp only [Except.map] at h
          injection h with h1
          rw [h1]
      | ok d2 =>
          rw [hpe, hpb] at h
          simp only [Except.map] at h
          cases h
  | ok d =>
      cases hpb : pipelineProcessDoc (baseEnv env) scraped with
      | error e2 =>
          rw [hpe, hpb] at h
          simp only [Except.map] at h
          cases h
      | ok d2 =>
          rw [hpe, hpb] at h
          simp only [Except.map] at h
          injection h with h1
          have hid : d.id = d2.id := by
            have := congrArg Document.id h1
            simpa [stripEnrichment_id] using this
          dsimp only
          rw [baseEnv_indexFails, ← hid]
          cases hi : env.indexFails d.id
          · simp only [hi, Bool.false_eq_true, if_false, Except.map, h1]
          · simp only [hi, if_true]

/-- The pipeline's indexing loop, compared with the client-free
environment. -/
theorem pipelineFold_strip (env : IngestEnv) (docs : List Document) :
    ∀ idx1 idx2 res, idx1.map stripEnrichment = idx2.map stripEnrichment →
      (docs.foldl (pipelineStep env) (idx1, res)).1.map stripEnrichment =
        (docs.foldl (pipelineStep (baseEnv env)) (idx2, res)).1.map stripEnrichment ∧
      (docs.foldl (pipelineStep env) (idx1, res)).2 =
        (docs.foldl (pipelineStep (baseEnv env)) (idx2, res)).2 := by
  induction docs with
  | nil => intro idx1 idx2 res h; exact ⟨h, rfl⟩
  | cons d rest ih =>
      intro idx1 idx2 res h
      simp only [List.foldl_cons]
      have hso := pipelineOutcome_strip env d
      unfold pipelineStep
      cases he : pipelineOutcome env d with
      | error e =>
          cases hb : pipelineOutcome (baseEnv env) d with
          | error e2 =>
              rw [he, hb] at hso
              simp only [Except.map] at hso
              injection hso with h1
              rw [h1]
              exact ih idx1 idx2 _ h
          | ok d2 =>
              rw [he, hb] at hso
              simp only [Except.map] at hso
              cases hso
      | ok dd =>
          cases hb : pipelineOutcome (baseEnv env) d with
          | error e2 =>
              rw [he, hb] at hso
              simp only [Except.map] at hso
              cases hso
          | ok d2 =>
              rw [he, hb] at hso
              simp only [Except.map] at hso
              injection hso with h1
              apply ih
              rw [upsertDocument_strip_map, upsertDocument_strip_map, h, h1]

/-- Claim C6: a failure of either enrichment call never aborts a document —
for every environment, the processed document, the ingestion run's result
(indexed count and recorded error list, so enrichment failures appear in no
error list and block no subsequent document) and the pipeline run's result
are exactly those of the environment with no model clients at all, and the
indexed documents differ at most in the enrichment-produced fields. -/
theorem enrichment_failure_harmless (env : IngestEnv) (st : Store)
    (idx : List Document) (pfx : List Char) (run : CrawlRun) :
    (∀ url content, (processDocument env url content).map stripEnrichment =
       (processDocument (baseEnv env) url content).map stripEnrichment) ∧
    ((Ingest env st idx pfx).map (fun p => (p.1.map stripEnrichment, p.2)) =
       (Ingest (baseEnv env) st idx pfx).map (fun p => (p.1.map stripEnrichment, p.2))) ∧
    ((PipelineRun env run idx).1.map stripEnrichment =
       (PipelineRun (baseEnv env) run idx).1.map stripEnrichment) ∧
    ((PipelineRun env run idx).2 = (PipelineRun (baseEnv env) run idx).2) := by
  refine ⟨fun url content => processDocument_strip env url content, ?_, ?_, ?_⟩
  · unfold Ingest
    cases hm : getMeta st pfx with
    | none => rfl
    | some m =>
        dsimp only
        have h := ingestFiles_strip env st pfx (urlToFileMap m.pages)
          (listMarkdownFiles st pfx) idx idx ⟨pfx, 0, []⟩ rfl
        simp only [Except.map]
        rw [h.1, h.2]
  · exact (pipelineFold_strip env (Scrape run).1 idx idx _ rfl).1
  · exact (pipelineFold_strip env (Scrape run).1 idx idx _ rfl).2

/-! ## Claim C9 -/

/-- The ingestion loop decomposed into its accumulator-independent
outcomes: final index, run prefix, indexed count and error list. -/
theorem ingestFiles_decomp (env : IngestEnv) (st : Store) (pfx : List Char)
    (u2f : List (List Char × List Char)) (files : List (List Char)) :
    ∀ idx res,
      (ingestFiles env st pfx u2f files (idx, res)).1 =
        (runOutcome env st pfx u2f files).1.foldl upsertDocument idx ∧
      (ingestFiles env st pfx u2f files (idx, res)).2.pfx = res.pfx ∧
      (ingestFiles env st pfx u2f files (idx, res)).2.docsIndexed =
        res.docsIndexed + (runOutcome env st pfx u2f files).1.length ∧
      (ingestFiles env st pfx u2f files (idx, res)).2.errors =
        res.errors ++ (runOutcome env st pfx u2f files).2 := by
  induction files with
  | nil => intro idx res; exact ⟨rfl, rfl, rfl, by simp [ingestFiles, runOutcome]⟩
  | cons f rest ih =>
      intro idx res
      unfold ingestFiles runOutcome ingestStep
      by_cases hc : env.cancelled = true
      · rw [if_pos hc, if_pos hc]
        exact ⟨rfl, rfl, rfl, rfl⟩
      · rw [if_neg hc, if_neg hc]
        cases he : stepOutcome env st pfx u2f f with
        | error e =>
            dsimp only
            rcases ih idx { res with errors := res.errors ++ [e] } with ⟨h1, h2, h3, h4⟩
            refine ⟨h1, h2, h3, ?_⟩
            rw [h4, List.append_assoc]
            rfl
        | ok d =>
            dsimp only
            rcases ih (upsertDocument idx d)
              { res with docsIndexed := res.docsIndexed + 1 } with ⟨h1, h2, h3, h4⟩
            refine ⟨h1, h2, ?_, h4⟩
            rw [h3]
            simp only [List.length_cons]
            omega

/-- Replacing the document with a given id changes no id in the index. -/
theorem replace_ids (idx : List Document) (d : Document) :
    (idx.map (fun x => if x.id == d.id then d else x)).map (fun x => x.id) =
      idx.map (fun x => x.id) := by
  induction idx with
  | nil => rfl
  | cons x t ih =>
      simp only [List.map_cons]
      cases hx : (x.id == d.id)
      · simp only [Bool.false_eq_true, if_false, ih]
      · simp only [if_true, ih]
        have : d.id = x.id := (beq_iff_eq.1 hx).symm
        rw [this]

/-- Upserting a document whose id is already present keeps the id list and
the index size unchanged. -/
theorem upsertDocument_ids_of_mem (idx : List Document) (d : Document)
    (h : d.id ∈ idx.map (fun x => x.id)) :
    (upsertDocument idx d).map (fun x => x.id) = idx.map (fun x => x.id) ∧
    (upsertDocument idx d).length = idx.length := by
  unfold upsertDocument
  have hany : idx.any (fun x => x.id == d.id) = true := by
    rcases List.mem_map.1 h with ⟨x, hx, hxid⟩
    refine List.any_eq_true.2 ⟨x, hx, ?_⟩
    have hxid' : x.id = d.id := hxid
    rw [hxid']
    exact beq_self_eq_true _
  simp only [hany, eq_self_iff_true, if_true]
  exact ⟨replace_ids idx d, by simp⟩

/-- Upserting preserves every id already in the index. -/
theorem upsertDocument_ids_mono (idx : List Document) (d : Document) (x : List Char)
    (h : x ∈ idx.map (fun y => y.id)) :
    x ∈ (upsertDocument idx d).map (fun y => y.id) := by
  unfold upsertDocument
  cases hany : idx.any (fun y => y.id == d.id)
  · simp only [Bool.false_eq_true, if_false, List.map_append]
    exact List.mem_append_left _ h
  · simp only [eq_self_iff_true, if_true]
    rw [replace_ids idx d]
    exact h

/-- The id of an upserted document is in the index afterwards. -/
theorem upsertDocument_id_mem (idx : List Document) (d : Document) :
    d.id ∈ (upsertDocument idx d).map (fun y => y.id) := by
  unfold upsertDocument
  cases hany : idx.any (fun y => y.id == d.id)
  · simp only [Bool.false_eq_true, if_false, List.map_append]
    exact List.mem_append_right _ (by simp)
  · simp only [eq_self_iff_true, if_true]
    rw [replace_ids idx d]
    rcases List.any_eq_true.1 hany with ⟨y, hy, hyd⟩
    have : y.id = d.id := by simpa using hyd
    rw [← this]
    exact List.mem_map.2 ⟨y, hy, rfl⟩

/-- Ids survive any sequence of upserts. -/
theorem foldl_upsert_ids_mono (D : List Document) :
    ∀ idx x, x ∈ idx.map (fun y => y.id) →
      x ∈ (D.foldl upsertDocument idx).map (fun y => y.id) := by
  induction D with
  | nil => intro idx x h; exact h
  | cons d D' ih =>
      intro idx x h
      exact ih _ x (upsertDocument_ids_mono idx d x h)

/-- After folding a document list into the index, every document's id is in
the index. -/
theorem foldl_upsert_ids_mem (D : List Document) :
    ∀ idx d, d ∈ D → d.id ∈ (D.foldl upsertDocument idx).map (fun y => y.id) := by
  induction D with
  | nil => intro idx d h; cases h
  | cons e D' ih =>
      intro idx d h
      rcases List.mem_cons.1 h with h | h
      · subst h
        exact foldl_upsert_ids_mono D' _ d.id (upsertDocument_id_mem idx d)
      · exact ih _ d h

/-- Folding documents whose ids are all present leaves the id list and the
index size unchanged. -/
theorem foldl_upsert_stable (D : List Document) :
    ∀ idx, (∀ d ∈ D, d.id ∈ idx.map (fun y => y.id)) →
      (D.foldl upsertDocument idx).map (fun y => y.id) = idx.map (fun y => y.id) ∧
      (D.foldl upsertDocument idx).length = idx.length := by
  induction D with
  | nil => intro idx _; exact ⟨rfl, rfl⟩
  | cons e D' ih =>
      intro idx h
      have he := h e (List.mem_cons_self _ _)
      rcases upsertDocument_ids_of_mem idx e he with ⟨hids, hlen⟩
      have hrest : ∀ d ∈ D', d.id ∈ (upsertDocument idx e).map (fun y => y.id) := by
        intro d hd
        rw [hids]
        exact h d (List.mem_cons_of_mem _ hd)
      rcases ih (upsertDocument idx e) hrest with ⟨h1, h2⟩
      exact ⟨by rw [List.foldl_cons, h1, hids], by rw [List.foldl_cons, h2, hlen]⟩

/-- Claim C9: re-ingesting the same stored prefix is idempotent — the
second run indexes the same number of documents with the same recorded
errors, and because each index write is an insert-or-replace keyed by the
document id, the index after the second run holds exactly the same id list
and the same number of entries as after the first (overwritten, never
appended). -/
theorem ingest_idempotent (env : IngestEnv) (st : Store) (idx0 : List Document)
    (pfx : List Char) (idx1 idx2 : List Document) (r1 r2 : IngestResult)
    (h1 : Ingest env st idx0 pfx = .ok (idx1, r1))
    (h2 : Ingest env st idx1 pfx = .ok (idx2, r2)) :
    r2.docsIndexed = r1.docsIndexed ∧ r2.errors = r1.errors ∧
    idx2.map (fun d => d.id) = idx1.map (fun d => d.id) ∧
    idx2.length = idx1.length := by
  unfold Ingest at h1 h2
  cases hm : getMeta st pfx with
  | none =>
      rw [hm] at h1
      cases h1
  | some m =>
      rw [hm] at h1 h2
      dsimp only at h1 h2
      injection h1 with h1'
      injection h2 with h2'
      rcases ingestFiles_decomp env st pfx (urlToFileMap m.pages)
        (listMarkdownFiles st pfx) idx0 ⟨pfx, 0, []⟩ with ⟨a1, a2, a3, a4⟩
      rcases ingestFiles_decomp env st pfx (urlToFileMap m.pages)
        (listMarkdownFiles st pfx) idx1 ⟨pfx, 0, []⟩ with ⟨b1, b2, b3, b4⟩
      rw [h1'] at a1 a3 a4
      rw [h2'] at b1 b3 b4
      dsimp only at a1 a3 a4 b1 b3 b4
      have hmem : ∀ d ∈ (runOutcome env st pfx (urlToFileMap m.pages)
          (listMarkdownFiles st pfx)).1, d.id ∈ idx1.map (fun y => y.id) := by
        intro d hd
        rw [a1]
        exact foldl_upsert_ids_mem _ idx0 d hd
      rcases foldl_upsert_stable
          (runOutcome env st pfx (urlToFileMap m.pages) (listMarkdownFiles st pfx)).1
          idx1 hmem with ⟨hid, hlen⟩
      refine ⟨?_, ?_, ?_, ?_⟩
      · rw [a3, b3]
      · rw [a4, b4]
      · rw [b1, hid]
      · rw [b1, hlen]

set_option maxRecDepth 8192 in
/-- Claim C9 witness: ingesting a one-page store twice from an empty index
— both runs index one document with no errors, and the index keeps the
single id. -/
theorem ingest_idempotent_witness :
    wRes.docsIndexed = wRes.docsIndexed ∧ wRes.errors = wRes.errors ∧
    [wDoc].map (fun d => d.id) = [wDoc].map (fun d => d.id) ∧
    ([wDoc] : List Document).length = [wDoc].length :=
  ingest_idempotent plainIngestEnv wStore [] wPfx [wDoc] [wDoc] wRes wRes
    (by decide) (by decide)

/-! ## Claim C10 -/

/-- A URL ending in `.md` is a markdown URL (lowering preserves the ASCII
suffix). -/
theorem isMarkdownURL_of_md_suffix (fname : List Char)
    (h : endsWithL ".md".data fname = true) : IsMarkdownURL fname = true := by
  rcases (endsWithL_iff _ _).1 h with ⟨t, rfl⟩
  unfold IsMarkdownURL
  have h1 : toLowerL (t ++ ".md".data) = toLowerL t ++ ".md".data := by
    unfold toLowerL
    rw [List.map_append]
    congr 1
  rw [h1, endsWithL_append]
  rfl

/-- With an empty content-type hint, any `.md`-named page is detected as
markdown regardless of its content. -/
theorem detect_md_filename (fname c : List Char)
    (h : endsWithL ".md".data fname = true) : Detect fname [] c = true := by
  unfold Detect
  rw [isMarkdownURL_of_md_suffix fname h]
  have hct : IsMarkdownContentType [] = false := by decide
  rw [hct]
  simp

/-- Enrichment never changes the id or the URL. -/
theorem applyEnrichment_id_url (env : IngestEnv) (b : Document) (md : List Char) :
    (applyEnrichment env b md).id = b.id ∧ (applyEnrichment env b md).url = b.url := by
  rcases applyEnrichment_shape env b md with ⟨tg, sm, em, h⟩
  rw [h]
  exact ⟨rfl, rfl⟩

/-- A processed document always carries the page URL and its derived id. -/
theorem processDocument_fields (env : IngestEnv) (u c : List Char) (d : Document)
    (h : processDocument env u c = .ok d) :
    d.id = GenerateDocumentID u ∧ d.url = u := by
  unfold processDocument at h
  cases hd : Detect u [] c
  · rw [hd] at h
    simp only [Bool.false_eq_true, if_false] at h
    cases hconv : env.convert c with
    | error e =>
        rw [hconv] at h
        cases h
    | ok md =>
        rw [hconv] at h
        dsimp only at h
        injection h with h'
        rw [← h']
        exact applyEnrichment_id_url env _ md
  · rw [hd] at h
    simp only [if_true] at h
    injection h with h'
    rw [← h']
    exact applyEnrichment_id_url env _ c

/-- Claim C10: a stored `.md` file whose name matches no manifest URL hash
is not skipped and records no error — its URL falls back to the bare
filename, and the indexed document has that filename as URL and
`GenerateDocumentID(filename)` as id. -/
theorem ingest_orphan_file (env : IngestEnv) (m : ScrapeMetadata)
    (pfx fname c : List Char)
    (hmd : endsWithL ".md".data fname = true)
    (horphan : ∀ u ∈ m.pages, ¬(GenerateDocumentID u ++ ".md".data = fname))
    (hidx : env.indexFails (GenerateDocumentID fname) = false)
    (hcancel : env.cancelled = false) :
    ∃ d res, Ingest env ⟨[(pfx, fname, c)], [(pfx, m)]⟩ [] pfx = .ok ([d], res) ∧
      d.url = fname ∧ d.id = GenerateDocumentID fname ∧
      res.docsIndexed = 1 ∧ res.errors = [] := by
  have hgm : getMeta ⟨[(pfx, fname, c)], [(pfx, m)]⟩ pfx = some m := by
    unfold getMeta
    simp
  have hlf : listMarkdownFiles ⟨[(pfx, fname, c)], [(pfx, m)]⟩ pfx = [fname] := by
    unfold listMarkdownFiles
    simp [hmd]
  have hgmk : getMarkdown ⟨[(pfx, fname, c)], [(pfx, m)]⟩ pfx fname = some c := by
    unfold getMarkdown
    simp
  have hlk : lookupUrlFor (urlToFileMap m.pages) fname = none := by
    unfold lookupUrlFor urlToFileMap
    have hfil : (m.pages.map (fun u => (GenerateDocumentID u ++ ".md".data, u))).filter
        (fun e => e.1 == fname) = [] := by
      rw [List.filter_eq_nil_iff]
      intro a ha
      rcases List.mem_map.1 ha with ⟨u, hu, rfl⟩
      intro hb
      exact horphan u hu (by simpa using hb)
    rw [hfil]
    rfl
  have hpd : processDocument env fname c = .ok (applyEnrichment env
      ⟨GenerateDocumentID fname, fname,
        (if extractMarkdownTitle c == ([] : List Char) then fname
         else extractMarkdownTitle c), c, [], env.now, [], [], none⟩ c) := by
    unfold processDocument
    rw [detect_md_filename fname c hmd]
    simp only [eq_self_iff_true, if_true]
  have hstep : stepOutcome env ⟨[(pfx, fname, c)], [(pfx, m)]⟩ pfx
      (urlToFileMap m.pages) fname = .ok (applyEnrichment env
      ⟨GenerateDocumentID fname, fname,
        (if extractMarkdownTitle c == ([] : List Char) then fname
         else extractMarkdownTitle c), c, [], env.now, [], [], none⟩ c) := by
    unfold stepOutcome
    rw [hlk, hgmk]
    dsimp only
    rw [hpd]
    dsimp only
    rw [(applyEnrichment_id_url env _ c).1]
    rw [hidx]
    simp
  refine ⟨applyEnrichment env
      ⟨GenerateDocumentID fname, fname,
        (if extractMarkdownTitle c == ([] : List Char) then fname
         else extractMarkdownTitle c), c, [], env.now, [], [], none⟩ c,
    ⟨pfx, 1, []⟩, ?_, ?_, ?_, rfl, rfl⟩
  · unfold Ingest
    rw [hgm]
    dsimp only
    rw [hlf]
    unfold ingestFiles
    rw [if_neg (by rw [hcancel]; simp)]
    unfold ingestStep
    rw [hstep]
    rfl
  · exact (applyEnrichment_id_url env _ c).2
  · exact (applyEnrichment_id_url env _ c).1

set_option maxRecDepth 8192 in
/-- Claim C10 witness: a store holding one orphan file `orphan.md` plus a
manifest listing an unrelated URL — the file is indexed with URL
`orphan.md` and id `GenerateDocumentID "orphan.md"`, with no error. -/
theorem ingest_orphan_file_witness :
    ∃ d res, Ingest plainIngestEnv
        ⟨[("p".data, "orphan.md".data, "hello".data)], [("p".data, orphanMeta)]⟩
        [] "p".data = .ok ([d], res) ∧
      d.url = "orphan.md".data ∧ d.id = GenerateDocumentID "orphan.md".data ∧
      res.docsIndexed = 1 ∧ res.errors = [] :=
  ingest_orphan_file plainIngestEnv orphanMeta "p".data "orphan.md".data "hello".data
    (by decide) (by decide) (by decide) (by decide)

/-! ## Claim C8 -/

/-- The page loop writes exactly the kept documents, as page ops and as
manifest URLs, in order. -/
theorem writePages_eq_kept (env : S3Env) (docs : List Document) :
    (writePages env docs).1 =
      (keptPages env docs).map (fun d => StoreOp.page env.pfx (pageFname d) d.content) ∧
    (writePages env docs).2 = (keptPages env docs).map (fun d => d.url) := by
  induction docs with
  | nil => exact ⟨rfl, rfl⟩
  | cons d rest ih =>
      unfold keptPages
      cases hf : env.putPageFails (pageFname d)
      · rw [writePages_cons_keep env d rest hf]
        simp only [Bool.false_eq_true, if_false, List.map_cons]
        exact ⟨by rw [ih.1]; rfl, by rw [ih.2]⟩
      · rw [writePages_cons_skip env d rest hf]
        simp only [if_true]
        exact ih

/-- Kept documents come from the collected documents. -/
theorem keptPages_sub (env : S3Env) (docs : List Document) (d : Document)
    (h : d ∈ keptPages env docs) : d ∈ docs := by
  induction docs with
  | nil => cases h
  | cons e rest ih =>
      unfold keptPages at h
      cases hf : env.putPageFails (pageFname e)
      · rw [hf] at h
        simp only [Bool.false_eq_true, if_false] at h
        rcases List.mem_cons.1 h with h | h
        · exact h ▸ List.mem_cons_self _ _
        · exact List.mem_cons_of_mem _ (ih h)
      · rw [hf] at h
        simp only [if_true] at h
        exact List.mem_cons_of_mem _ (ih h)

/-- A successful `ScrapeToS3` run's trace is the page writes followed by
the manifest write. -/
theorem scrapeToS3_ok_trace (env : S3Env) (r : ScrapeResult)
    (hok : (ScrapeToS3 env).2 = .ok r) :
    (ScrapeToS3 env).1 =
      (writePages env (scrapedDocs env)).1 ++ [.meta env.pfx (scrapeMeta env)] := by
  unfold ScrapeToS3 at hok ⊢
  cases hp : env.run.parseOk
  · rw [hp] at hok
    simp at hok
  · rw [hp] at hok
    simp only [Bool.not_true, Bool.false_eq_true, if_false] at hok ⊢
    cases hcond : ((Scrape env.run).2.isSome && (Scrape env.run).1.isEmpty)
    · rw [hcond] at hok
      simp only [Bool.false_eq_true, if_false] at hok ⊢
      cases hm : env.putMetaFails
      · rw [hm] at hok
        simp only [Bool.false_eq_true, if_false] at hok ⊢
        rfl
      · rw [hm] at hok
        simp at hok
    · rw [hcond] at hok
      simp at hok

/-- `putMeta` does not touch page objects. -/
theorem putMeta_pages (st : Store) (pfx : List Char) (m : ScrapeMetadata) :
    (putMeta st pfx m).pages = st.pages := by
  unfold putMeta
  cases h : st.manifests.any (fun e => e.1 == pfx)
  · simp only [Bool.false_eq_true, if_false]
  · simp only [if_true]

/-- Replaying page writes with pairwise distinct filenames appends their
triples to the store and leaves the manifests unchanged. -/
theorem applyOps_pageOps (P : List Char) (K : List Document)
    (hnodup : (K.map pageFname).Nodup) :
    ∀ st : Store,
      (∀ d ∈ K, ∀ e ∈ st.pages, ¬(e.1 = P ∧ e.2.1 = pageFname d)) →
      (applyOps st (K.map (fun d => StoreOp.page P (pageFname d) d.content))).pages
          = st.pages ++ K.map (fun d => (P, pageFname d, d.content)) ∧
      (applyOps st (K.map (fun d => StoreOp.page P (pageFname d) d.content))).manifests
          = st.manifests := by
  induction K with
  | nil => intro st _; exact ⟨by simp [applyOps], rfl⟩
  | cons d K' ih =>
      intro st hcol
      simp only [List.map_cons, List.nodup_cons] at hnodup
      have hdnotin : pageFname d ∉ K'.map pageFname := hnodup.1
      have hnodup' : (K'.map pageFname).Nodup := hnodup.2
      have hany : st.pages.any (fun e => e.1 == P && e.2.1 == pageFname d) = false := by
        rw [List.any_eq_false]
        intro e he
        have hres := hcol d (List.mem_cons_self _ _) e he
        intro hb
        simp only [Bool.and_eq_true] at hb
        exact hres ⟨by simpa using hb.1, by simpa using hb.2⟩
      have hput : putPage st P (pageFname d) d.content =
          { st with pages := st.pages ++ [(P, pageFname d, d.content)] } := by
        unfold putPage
        rw [hany]
        simp
      simp only [List.map_cons]
      unfold applyOps
      rw [List.foldl_cons]
      have happ : applyOp st (StoreOp.page P (pageFname d) d.content) =
          { st with pages := st.pages ++ [(P, pageFname d, d.content)] } := hput
      rw [happ]
      have hcol' : ∀ d' ∈ K', ∀ e ∈ (st.pages ++ [(P, pageFname d, d.content)]),
          ¬(e.1 = P ∧ e.2.1 = pageFname d') := by
        intro d' hd' e he
        rcases List.mem_append.1 he with he | he
        · exact hcol d' (List.mem_cons_of_mem _ hd') e he
        · simp only [List.mem_singleton] at he
          subst he
          rintro ⟨-, hfn⟩
          have hfn' : pageFname d = pageFname d' := hfn
          exact hdnotin (hfn' ▸ List.mem_map.2 ⟨d', hd', rfl⟩)
      rcases ih hnodup' { st with pages := st.pages ++ [(P, pageFname d, d.content)] }
        hcol' with ⟨h1, h2⟩
      unfold applyOps at h1 h2
      refine ⟨?_, h2⟩
      rw [h1]
      simp

/-- Listing the page files of a store that holds exactly the kept pages
returns their filenames in order. -/
theorem listMarkdownFiles_of_pages (P : List Char) (K : List Document) (st : Store)
    (hpages : st.pages = K.map (fun d => (P, pageFname d, d.content))) :
    listMarkdownFiles st P = K.map pageFname := by
  unfold listMarkdownFiles
  rw [hpages]
  clear hpages
  induction K with
  | nil => rfl
  | cons d K' ih =>
      simp only [List.map_cons, List.filter_cons]
      have hcond : ((P, pageFname d, d.content).1 == P &&
          endsWithL ".md".data (P, pageFname d, d.content).2.1) = true := by
        rw [Bool.and_eq_true]
        refine ⟨by simp, ?_⟩
        show endsWithL ".md".data (pageFname d) = true
        unfold pageFname
        exact endsWithL_append _ _
      rw [hcond]
      simp only [eq_self_iff_true, if_true, List.map_cons]
      rw [ih]

/-- Reading a kept page back from such a store returns its content. -/
theorem getMarkdown_of_pages (P : List Char) (K : List Document) (d : Document)
    (hd : d ∈ K) (hnodup : (K.map pageFname).Nodup) (st : Store)
    (hpages : st.pages = K.map (fun x => (P, pageFname x, x.content))) :
    getMarkdown st P (pageFname d) = some d.content := by
  unfold getMarkdown
  rw [hpages]
  clear hpages
  induction K with
  | nil => cases hd
  | cons e K' ih =>
      rcases List.mem_cons.1 hd with hde | hde
      · subst hde
        simp only [List.map_cons, List.filter_cons]
        have hcond : ((P, pageFname d, d.content).1 == P &&
            (P, pageFname d, d.content).2.1 == pageFname d) = true := by
          rw [Bool.and_eq_true]
          exact ⟨by simp, by simp⟩
        rw [hcond]
        simp only [eq_self_iff_true, if_true, List.head?_cons]
        rfl
      · simp only [List.map_cons, List.nodup_cons] at hnodup
        have hnot : pageFname e ∉ K'.map pageFname := hnodup.1
        have hne : (pageFname e == pageFname d) = false := by
          have hmem : pageFname d ∈ K'.map pageFname := List.mem_map.2 ⟨d, hde, rfl⟩
          rcases Bool.eq_false_or_eq_true (pageFname e == pageFname d) with h | h
          · exact absurd ((beq_iff_eq.1 h) ▸ hmem) hnot
          · exact h
        simp only [List.map_cons, List.filter_cons]
        have hcond : ((P, pageFname e, e.content).1 == P &&
            (P, pageFname e, e.content).2.1 == pageFname d) = false := by
          show (_ && (pageFname e == pageFname d)) = false
          rw [hne]
          simp
        rw [hcond]
        simp only [Bool.false_eq_true, if_false]
        exact ih hde hnodup.2

/-- Appending a fixed suffix is injective. -/
theorem append_suffix_inj (s : List Char) :
    Function.Injective (fun x : List Char => x ++ s) := by
  intro a b h
  simp only at h
  exact (List.append_inj' h rfl).1

/-- The manifest mapping recovers the URL of a listed page whose hash does
not collide with any other listed page. -/
theorem lookupUrlFor_pages (pages : List (List Char)) (u : List Char)
    (hu : u ∈ pages) (hnodup : (pages.map GenerateDocumentID).Nodup) :
    lookupUrlFor (urlToFileMap pages) (GenerateDocumentID u ++ ".md".data) = some u := by
  unfold lookupUrlFor urlToFileMap
  induction pages with
  | nil => cases hu
  | cons v rest ih =>
      simp only [List.map_cons, List.nodup_cons] at hnodup
      simp only [List.map_cons, List.filter_cons]
      rcases List.mem_cons.1 hu with rfl | huv
      · have hcond : ((GenerateDocumentID u ++ ".md".data, u).1 ==
            GenerateDocumentID u ++ ".md".data) = true := by simp
        rw [hcond]
        have hfil : (rest.map (fun w => (GenerateDocumentID w ++ ".md".data, w))).filter
            (fun e => e.1 == GenerateDocumentID u ++ ".md".data) = [] := by
          rw [List.filter_eq_nil_iff]
          intro a ha
          rcases List.mem_map.1 ha with ⟨w, hw, rfl⟩
          intro hb
          have hbe : GenerateDocumentID w ++ ".md".data =
              GenerateDocumentID u ++ ".md".data := by simpa using hb
          have hg : GenerateDocumentID w = GenerateDocumentID u :=
            append_suffix_inj _ hbe
          exact hnodup.1 (hg ▸ List.mem_map.2 ⟨w, hw, rfl⟩)
        rw [hfil]
        simp
      · have hcond : ((GenerateDocumentID v ++ ".md".data, v).1 ==
            GenerateDocumentID u ++ ".md".data) = false := by
          rcases Bool.eq_false_or_eq_true ((GenerateDocumentID v ++ ".md".data, v).1 ==
              GenerateDocumentID u ++ ".md".data) with hb | hb
          · exfalso
            have hbe : GenerateDocumentID v ++ ".md".data =
                GenerateDocumentID u ++ ".md".data := by simpa using hb
            have hg : GenerateDocumentID v = GenerateDocumentID u :=
              append_suffix_inj _ hbe
            exact hnodup.1 (hg ▸ List.mem_map.2 ⟨u, huv, rfl⟩)
          · exact hb
        rw [hcond]
        simp only [Bool.false_eq_true, if_false]
        exact ih huv hnodup.2

/-- Processing markdown-detected content succeeds with the enriched
document built from the page URL and content. -/
theorem processDocument_md_ok (env : IngestEnv) (u c : List Char)
    (h : Detect u [] c = true) :
    processDocument env u c = .ok (applyEnrichment env
      ⟨GenerateDocumentID u, u,
        (if extractMarkdownTitle c == ([] : List Char) then u
         else extractMarkdownTitle c), c, [], env.now, [], [], none⟩ c) := by
  unfold processDocument
  rw [h]
  simp only [eq_self_iff_true, if_true]

/-- An upserted document is in the index afterwards. -/
theorem upsertDocument_self_mem (idx : List Document) (d : Document) :
    d ∈ upsertDocument idx d := by
  unfold upsertDocument
  cases hany : idx.any (fun x => x.id == d.id)
  · simp only [Bool.false_eq_true, if_false]
    exact List.mem_append_right _ (by simp)
  · simp only [eq_self_iff_true, if_true]
    rcases List.any_eq_true.1 hany with ⟨x, hx, hxd⟩
    refine List.mem_map.2 ⟨x, hx, ?_⟩
    rw [if_pos (show (x.id == d.id) = true from hxd)]

/-- A document survives upserts keyed to a different id. -/
theorem upsertDocument_mem_of_ne (idx : List Document) (d x : Document)
    (h : x ∈ idx) (hne : ¬(x.id = d.id)) : x ∈ upsertDocument idx d := by
  unfold upsertDocument
  cases hany : idx.any (fun y => y.id == d.id)
  · simp only [Bool.false_eq_true, if_false]
    exact List.mem_append_left _ h
  · simp only [eq_self_iff_true, if_true]
    refine List.mem_map.2 ⟨x, h, ?_⟩
    have hbe : (x.id == d.id) = false := by
      rcases Bool.eq_false_or_eq_true (x.id == d.id) with hb | hb
      · exact absurd (beq_iff_eq.1 hb) hne
      · exact hb
    simp [hbe]

/-- With no cancellation the ingestion loop is a plain fold. -/
theorem ingestFiles_eq_foldl (env : IngestEnv) (st : Store) (pfx : List Char)
    (u2f : List (List Char × List Char)) (h : env.cancelled = false) :
    ∀ files acc, ingestFiles env st pfx u2f files acc =
      files.foldl (ingestStep env st pfx u2f) acc := by
  intro files
  induction files with
  | nil => intro acc; rfl
  | cons f rest ih =>
      intro acc
      unfold ingestFiles
      rw [if_neg (by rw [h]; simp)]
      rw [List.foldl_cons]
      exact ih _

/-- A successfully indexed step outcome carries the id derived from the
recovered (or fallback) page URL. -/
theorem stepOutcome_ok_fields (env : IngestEnv) (st : Store) (pfx : List Char)
    (u2f : List (List Char × List Char)) (fname : List Char) (d : Document)
    (h : stepOutcome env st pfx u2f fname = .ok d) :
    d.id = GenerateDocumentID
      (match lookupUrlFor u2f fname with | some u => u | none => fname) := by
  unfold stepOutcome at h
  cases hg : getMarkdown st pfx fname with
  | none =>
      rw [hg] at h
      cases h
  | some content =>
      rw [hg] at h
      dsimp only at h
      cases hpd : processDocument env
          (match lookupUrlFor u2f fname with | some u => u | none => fname) content with
      | error e =>
          rw [hpd] at h
          cases h
      | ok dd =>
          rw [hpd] at h
          dsimp only at h
          cases hi : env.indexFails dd.id
          · rw [hi] at h
            simp only [Bool.false_eq_true, if_false] at h
            injection h with h'
            rw [← h']
            exact (processDocument_fields env _ content dd hpd).1
          · rw [hi] at h
            simp at h

/-- An index member survives a run of steps none of which indexes a
document with its id. -/
theorem ingestSteps_preserve_mem (env : IngestEnv) (st : Store) (pfx : List Char)
    (u2f : List (List Char × List Char)) (x : Document) :
    ∀ files : List (List Char),
      (∀ f ∈ files, ∀ d, stepOutcome env st pfx u2f f = .ok d → ¬(d.id = x.id)) →
      ∀ acc : List Document × IngestResult, x ∈ acc.1 →
        x ∈ (files.foldl (ingestStep env st pfx u2f) acc).1 := by
  intro files
  induction files with
  | nil => intro _ acc h; exact h
  | cons f rest ih =>
      intro hids acc hx
      rw [List.foldl_cons]
      refine ih (fun f' hf' => hids f' (List.mem_cons_of_mem _ hf')) _ ?_
      unfold ingestStep
      cases he : stepOutcome env st pfx u2f f with
      | error e => exact hx
      | ok d =>
          exact upsertDocument_mem_of_ne acc.1 d x hx
            (fun hxd => hids f (List.mem_cons_self _ _) d he hxd.symm)

/-- Claim C8: round-trip URL recovery — for every page URL `u` stored by a
successful `ScrapeToS3` run (recorded in the manifest's page list, with no
truncated-hash collision among the listed pages, markdown-detected content
for `u`'s page, and a working index write for its id), ingesting the
replayed store at the run's prefix succeeds and indexes a document whose
URL is `u` and whose id is `GenerateDocumentID u`, recovered through the
manifest mapping. -/
theorem scrape_ingest_roundtrip (env : S3Env) (ienv : IngestEnv)
    (r : ScrapeResult) (u : List Char)
    (hok : (ScrapeToS3 env).2 = .ok r)
    (hu : u ∈ (scrapeMeta env).pages)
    (hnodup : ((scrapeMeta env).pages.map GenerateDocumentID).Nodup)
    (hdet : ∀ d ∈ scrapedDocs env, d.url = u → Detect u [] d.content = true)
    (hidx : ienv.indexFails (GenerateDocumentID u) = false)
    (hcancel : ienv.cancelled = false) :
    ∃ idx res,
      Ingest ienv (applyOps ⟨[], []⟩ (ScrapeToS3 env).1) [] env.pfx = .ok (idx, res) ∧
      ∃ d ∈ idx, d.url = u ∧ d.id = GenerateDocumentID u := by
  have htr := scrapeToS3_ok_trace env r hok
  have hkept := writePages_eq_kept env (scrapedDocs env)
  have hpages_eq : (scrapeMeta env).pages =
      (keptPages env (scrapedDocs env)).map (fun d => d.url) := hkept.2
  have hnodupK : ((keptPages env (scrapedDocs env)).map pageFname).Nodup := by
    have h1 : (((keptPages env (scrapedDocs env)).map (fun d => d.url)).map
        GenerateDocumentID).Nodup := hpages_eq ▸ hnodup
    rw [List.map_map] at h1
    have h2 : (keptPages env (scrapedDocs env)).map pageFname =
        ((keptPages env (scrapedDocs env)).map
          (GenerateDocumentID ∘ fun d => d.url)).map (fun x => x ++ ".md".data) := by
      rw [List.map_map]
      rfl
    rw [h2]
    exact List.Nodup.map (append_suffix_inj _) h1
  have hstore := applyOps_pageOps env.pfx (keptPages env (scrapedDocs env)) hnodupK
    ⟨[], []⟩ (by intro d hd e he; cases he)
  have htr' : applyOps ⟨[], []⟩ (ScrapeToS3 env).1 =
      putMeta (applyOps ⟨[], []⟩ ((keptPages env (scrapedDocs env)).map
        (fun d => StoreOp.page env.pfx (pageFname d) d.content)))
        env.pfx (scrapeMeta env) := by
    rw [htr, hkept.1]
    unfold applyOps
    rw [List.foldl_append]
    rfl
  have hgmeta : getMeta (applyOps ⟨[], []⟩ (ScrapeToS3 env).1) env.pfx =
      some (scrapeMeta env) := by
    rw [htr']
    exact getMeta_putMeta _ _ _
  have hpagesF : (applyOps ⟨[], []⟩ (ScrapeToS3 env).1).pages =
      (keptPages env (scrapedDocs env)).map
        (fun d => (env.pfx, pageFname d, d.content)) := by
    rw [htr', putMeta_pages]
    simpa using hstore.1
  have hfiles : listMarkdownFiles (applyOps ⟨[], []⟩ (ScrapeToS3 env).1) env.pfx =
      (keptPages env (scrapedDocs env)).map pageFname :=
    listMarkdownFiles_of_pages env.pfx _ _ hpagesF
  rcases List.mem_map.1 (hpages_eq ▸ hu) with ⟨du, hduK, hduu⟩
  have hfn : pageFname du = GenerateDocumentID u ++ ".md".data := by
    unfold pageFname
    rw [hduu]
  have hlkp : lookupUrlFor (urlToFileMap (scrapeMeta env).pages) (pageFname du)
      = some u := by
    rw [hfn]
    exact lookupUrlFor_pages _ u hu hnodup
  have hgmk : getMarkdown (applyOps ⟨[], []⟩ (ScrapeToS3 env).1) env.pfx (pageFname du)
      = some du.content :=
    getMarkdown_of_pages env.pfx _ du hduK hnodupK _ hpagesF
  have hdetu : Detect u [] du.content = true :=
    hdet du (keptPages_sub env _ du hduK) hduu
  have hstep : stepOutcome ienv (applyOps ⟨[], []⟩ (ScrapeToS3 env).1) env.pfx
      (urlToFileMap (scrapeMeta env).pages) (pageFname du) =
      .ok (applyEnrichment ienv
        ⟨GenerateDocumentID u, u,
          (if extractMarkdownTitle du.content == ([] : List Char) then u
           else extractMarkdownTitle du.content), du.content, [], ienv.now, [], [], none⟩
        du.content) := by
    unfold stepOutcome
    rw [hlkp, hgmk]
    dsimp only
    rw [processDocument_md_ok ienv u du.content hdetu]
    dsimp only
    rw [(applyEnrichment_id_url ienv _ du.content).1]
    dsimp only
    rw [hidx]
    simp
  refine ⟨(ingestFiles ienv (applyOps ⟨[], []⟩ (ScrapeToS3 env).1) env.pfx
      (urlToFileMap (scrapeMeta env).pages)
      (listMarkdownFiles (applyOps ⟨[], []⟩ (ScrapeToS3 env).1) env.pfx)
      ([], ⟨env.pfx, 0, []⟩)).1,
    (ingestFiles ienv (applyOps ⟨[], []⟩ (ScrapeToS3 env).1) env.pfx
      (urlToFileMap (scrapeMeta env).pages)
      (listMarkdownFiles (applyOps ⟨[], []⟩ (ScrapeToS3 env).1) env.pfx)
      ([], ⟨env.pfx, 0, []⟩)).2, ?_, ?_⟩
  · unfold Ingest
    rw [hgmeta]
  · rw [hfiles, ingestFiles_eq_foldl ienv _ env.pfx _ hcancel]
    have hfu : pageFname du ∈ (keptPages env (scrapedDocs env)).map pageFname :=
      List.mem_map.2 ⟨du, hduK, rfl⟩
    rcases List.append_of_mem hfu with ⟨L1, L2, hsplit⟩
    rw [hsplit, List.foldl_append, List.foldl_cons]
    have hfunotinL2 : pageFname du ∉ L2 := by
      have hn := hnodupK
      rw [hsplit, List.nodup_middle, List.nodup_cons] at hn
      intro hmem
      exact hn.1 (List.mem_append_right _ hmem)
    refine ⟨applyEnrichment ienv
        ⟨GenerateDocumentID u, u,
          (if extractMarkdownTitle du.content == ([] : List Char) then u
           else extractMarkdownTitle du.content), du.content, [], ienv.now, [], [], none⟩
        du.content, ?_, ?_, ?_⟩
    · refine ingestSteps_preserve_mem ienv _ env.pfx _ _ L2 ?_ _ ?_
      · intro f hf d hd
        have hfK : f ∈ (keptPages env (scrapedDocs env)).map pageFname := by
          rw [hsplit]
          exact List.mem_append.2 (Or.inr (List.mem_cons_of_mem _ hf))
        rcases List.mem_map.1 hfK with ⟨d', hd'K, hfd'⟩
        have hu' : d'.url ∈ (scrapeMeta env).pages := by
          rw [hpages_eq]
          exact List.mem_map.2 ⟨d', hd'K, rfl⟩
        have hlk' : lookupUrlFor (urlToFileMap (scrapeMeta env).pages) f
            = some d'.url := by
          rw [← hfd']
          show lookupUrlFor _ (pageFname d') = _
          unfold pageFname
          exact lookupUrlFor_pages _ d'.url hu' hnodup
        have hid := stepOutcome_ok_fields ienv _ env.pfx _ f d hd
        rw [hlk'] at hid
        dsimp only at hid
        intro hcontra
        have hdocid : (applyEnrichment ienv
            ⟨GenerateDocumentID u, u,
              (if extractMarkdownTitle du.content == ([] : List Char) then u
               else extractMarkdownTitle du.content), du.content, [], ienv.now,
              [], [], none⟩ du.content).id = GenerateDocumentID u :=
          (applyEnrichment_id_url ienv _ _).1
        have hgeq : GenerateDocumentID d'.url = GenerateDocumentID u := by
          rw [← hid, hcontra, hdocid]
        have hfeq : f = pageFname du := by
          rw [← hfd']
          unfold pageFname
          rw [hgeq, hduu]
        exact hfunotinL2 (hfeq ▸ hf)
      · unfold ingestStep
        rw [hstep]
        dsimp only
        exact upsertDocument_self_mem _ _
    · exact (applyEnrichment_id_url ienv _ _).2
    · exact (applyEnrichment_id_url ienv _ _).1

set_option maxRecDepth 16384 in
/-- Claim C8 witness: a two-page crawl written to an empty store and then
re-ingested from the stored prefix — the first page's URL is recovered from
the manifest and indexed with its derived id. -/
theorem scrape_ingest_roundtrip_witness :
    ∃ idx res,
      Ingest plainIngestEnv (applyOps ⟨[], []⟩ (ScrapeToS3 roundtripEnv).1) []
          roundtripEnv.pfx = .ok (idx, res) ∧
      ∃ d ∈ idx, d.url = "https://example.com/a".data ∧
        d.id = GenerateDocumentID "https://example.com/a".data :=
  scrape_ingest_roundtrip roundtripEnv plainIngestEnv
    ⟨roundtripEnv.pfx, 2, roundtripEnv.startURL⟩ "https://example.com/a".data
    (by decide) (by decide) (by decide) (by decide) (by decide) (by decide)

end BamRag
